import Mathlib

/-!
Verification development for the roadtown race-analysis core
(`src/server.py` and `src/build.py`).

The verified operations are the Age Reducer (`get_fastest_at_each_age`),
the Pareto Engine (`compute_pareto_front`), the Metrics Engine
(`get_pareto_time_at_age`, `count_blocking_runners`) and the all-time
display-name resolution of `build_all_time_data` / `get_all_time_data`.

Modelling conventions:
  * a Python result-row dict is the structure `Runner`; only the fields
    that the verified operations actually read (`name`, `age`,
    `time_seconds`, `year`) are carried — `sex`, `division`, `div_place`
    and `time_display` are never inspected by any of the functions above,
    they are merely copied through;
  * Python `float` times parsed from text are modelled as exact rationals
    (all arithmetic performed on them here is `+ - * /` and comparisons);
  * Python `min(xs, key=f)` / `max(xs, key=f)` keep the first optimum in
    iteration order, modelled by `firstMinKey` / `firstMaxKey`;
  * Python `sorted(xs, key=f)` is a stable sort, modelled by
    `List.insertionSort` (which inserts each element before the first
    strictly-later-keyed element of the already-sorted tail, hence is the
    same stable sort);
  * Python dicts keep key-insertion order; they are modelled as
    association lists where a fresh key is appended at the end and an
    existing key is overwritten in place;
  * a Python exception (`min` of an empty sequence raises `ValueError`)
    is modelled by the `none` value of an `Option` result.
-/

namespace Roadtown

/-- One parsed result row.  Fields not read by the verified core
(`sex`, `division`, `div_place`, `time_display`) are omitted; they are
only copied through by the code being verified. -/
structure Runner where
  name : String
  age : Nat
  time_seconds : ℚ
  year : String
  deriving DecidableEq, Repr

/-- Embeds Python `min(r :: rs, key)`: fold that replaces the current
optimum only on a strictly smaller key, hence keeps the first minimum. -/
def firstMinKey {β : Type} [LinearOrder β] (key : Runner → β) (r : Runner)
    (rs : List Runner) : Runner :=
  rs.foldl (fun best x => if key x < key best then x else best) r

/-- Embeds Python `max(r :: rs, key)`: fold that replaces the current
optimum only on a strictly larger key, hence keeps the first maximum. -/
def firstMaxKey {β : Type} [LinearOrder β] (key : Runner → β) (r : Runner)
    (rs : List Runner) : Runner :=
  rs.foldl (fun best x => if key best < key x then x else best) r

/-- Sort key of `sorted(runners, key=lambda x: x.age)`. -/
def ageLE (a b : Runner) : Prop := a.age ≤ b.age

instance : DecidableRel ageLE := fun a b => inferInstanceAs (Decidable (a.age ≤ b.age))

instance : IsTotal Runner ageLE := ⟨fun a b => Nat.le_total a.age b.age⟩

instance : IsTrans Runner ageLE := ⟨fun _ _ _ h₁ h₂ => Nat.le_trans h₁ h₂⟩

/-- Embeds `sorted(runners, key=lambda x: x.age)` (a stable sort by age). -/
def sortByAge (l : List Runner) : List Runner := List.insertionSort ageLE l

/-- One scanning loop of `compute_pareto_front`: keep a record iff its
time is strictly below the running `best_time_so_far`, then update the
best.  The initial value `float(&apos;inf&apos;)` of the best is the `none`
state, against which the strict-less-than test always succeeds; once a
record has been kept the best is the finite `some` of its time. -/
def paretoScan : Option ℚ → List Runner → List Runner
  | _, [] => []
  | none, r :: rs => r :: paretoScan (some r.time_seconds) rs
  | some b, r :: rs =>
    if r.time_seconds < b then r :: paretoScan (some r.time_seconds) rs
    else paretoScan (some b) rs

/-- The younger-than-peak half of the front: filter the age-sorted pool
to ages strictly below the peak age and scan left to right. -/
def yFront (peak : Nat) (pool : List Runner) : List Runner :=
  paretoScan none ((sortByAge pool).filter fun x => decide (x.age < peak))

/-- The at-or-older-than-peak half of the front: filter the age-sorted
pool to ages at or above the peak age, scan it from the oldest to the
youngest, and reverse the collected subsequence back to ascending age. -/
def oFront (peak : Nat) (pool : List Runner) : List Runner :=
  (paretoScan none (((sortByAge pool).filter fun x => decide (peak ≤ x.age)).reverse)).reverse

/-- Embeds `compute_pareto_front` (identical in `server.py` lines
119-161 and `build.py` lines 92-129): empty input gives an empty front;
otherwise the peak age is the age of the first globally minimal-time
record, and the front is the younger-side scan followed by the
older-side scan. -/
def compute_pareto_front : List Runner → List Runner
  | [] => []
  | p :: ps =>
    yFront (firstMinKey Runner.time_seconds p ps).age (p :: ps) ++
    oFront (firstMinKey Runner.time_seconds p ps).age (p :: ps)

/-- The exact-age lookup loop of `get_pareto_time_at_age`: return the
time of the first front entry whose age equals the queried age. -/
def findExact (age : Nat) : List Runner → Option ℚ
  | [] => none
  | p :: ps => if p.age = age then some p.time_seconds else findExact age ps

/-- Embeds `get_pareto_time_at_age` (`server.py` lines 200-232):
`none` on an empty front; the first exact age match if any; otherwise
the youngest front time when the age is below every front age, the
oldest front time when it is above every front age, and linear
interpolation between the closest younger and closest older front
entries in between. -/
def get_pareto_time_at_age (age : Nat) (front : List Runner) : Option ℚ :=
  match front with
  | [] => none
  | f :: fs =>
    match findExact age (f :: fs) with
    | some t => some t
    | none =>
      match (f :: fs).filter fun q => decide (q.age < age),
            (f :: fs).filter fun q => decide (age < q.age) with
      | [], [] => none
      | [], _ :: _ => some (firstMinKey (fun r => r.age) f fs).time_seconds
      | _ :: _, [] => some (firstMaxKey (fun r => r.age) f fs).time_seconds
      | yh :: yt, oh :: ot =>
        some ((firstMaxKey (fun r => r.age) yh yt).time_seconds +
          ((firstMinKey (fun r => r.age) oh ot).time_seconds -
              (firstMaxKey (fun r => r.age) yh yt).time_seconds) *
            ((age : ℚ) - ((firstMaxKey (fun r => r.age) yh yt).age : ℚ)) /
            (((firstMinKey (fun r => r.age) oh ot).age : ℚ) -
              ((firstMaxKey (fun r => r.age) yh yt).age : ℚ)))

/-- Embeds `count_blocking_runners` (`server.py` lines 235-266).  The
function starts with `min(all_runners_same_gender, ...)`, which raises
`ValueError` on an empty pool: that raised exception is modelled by the
`none` result.  On a non-empty pool the three branches count with the
exact predicates of the three Python loops. -/
def count_blocking_runners (runner : Runner) : List Runner → Option Nat
  | [] => none
  | p :: ps =>
    if runner.age < (firstMinKey Runner.time_seconds p ps).age then
      some ((p :: ps).countP fun o =>
        decide (o.age ≤ runner.age) && decide (o.time_seconds < runner.time_seconds))
    else if (firstMinKey Runner.time_seconds p ps).age < runner.age then
      some ((p :: ps).countP fun o =>
        decide (runner.age ≤ o.age) && decide (o.time_seconds < runner.time_seconds))
    else if runner.time_seconds = (firstMinKey Runner.time_seconds p ps).time_seconds then
      some 0
    else
      some ((p :: ps).countP fun o =>
        decide (o.age = runner.age) && decide (o.time_seconds < runner.time_seconds))

/-- Lookup in an insertion-ordered dict with `Nat` keys. -/
def lookupAge (a : Nat) : List (Nat × Runner) → Option Runner
  | [] => none
  | (k, v) :: m => if k = a then some v else lookupAge a m

/-- In-place overwrite of the (first) entry holding key `a`, as Python
dict assignment to an existing key keeps the key position. -/
def setAgeEntry (a : Nat) (r : Runner) : List (Nat × Runner) → List (Nat × Runner)
  | [] => []
  | (k, v) :: m => if k = a then (k, r) :: m else (k, v) :: setAgeEntry a r m

/-- One step of the grouping loop of `get_fastest_at_each_age`:
`if age not in age_groups or runner.time_seconds < age_groups[age].time_seconds:
 age_groups[age] = runner`. -/
def updateAgeGroups (m : List (Nat × Runner)) (r : Runner) : List (Nat × Runner) :=
  match lookupAge r.age m with
  | none => m ++ [(r.age, r)]
  | some cur => if r.time_seconds < cur.time_seconds then setAgeEntry r.age r m else m

/-- Embeds `get_fastest_at_each_age` (`build.py` lines 77-89 and the
identical closures in `server.py`): empty pool gives an empty list,
otherwise the values of the insertion-ordered age dict built by the
grouping loop. -/
def get_fastest_at_each_age (runners : List Runner) : List Runner :=
  match runners with
  | [] => []
  | _ => (runners.foldl updateAgeGroups []).map Prod.snd

/-- Lookup in an insertion-ordered dict with `String` keys. -/
def lookupName (n : String) : List (String × List String) → Option (List String)
  | [] => none
  | (k, v) :: m => if k = n then some v else lookupName n m

/-- In-place overwrite of the (first) entry holding key `n`. -/
def setNameEntry (n : String) (ys : List String) :
    List (String × List String) → List (String × List String)
  | [] => []
  | (k, v) :: m => if k = n then (k, ys) :: m else (k, v) :: setNameEntry n ys m

/-- One step of the duplicate-name detection loop of
`build_all_time_data` / `get_all_time_data`: append the record year to
the (possibly fresh) list kept under the record name. -/
def addYear (m : List (String × List String)) (r : Runner) : List (String × List String) :=
  match lookupName r.name m with
  | none => m ++ [(r.name, [r.year])]
  | some ys => setNameEntry r.name (ys ++ [r.year]) m

/-- The `name_year_counts` dict of the all-time view: all years of all
records, grouped by raw name, in traversal order. -/
def name_year_counts (results : List Runner) : List (String × List String) :=
  results.foldl addYear []

/-- Embeds the display-name assignment of the all-time view
(`server.py` lines 461-467, `build.py` lines 284-290): append
`" (year)"` exactly when the name's collected years contain more than
one distinct year (`len(set(...)) > 1`). -/
def display_name (results : List Runner) (r : Runner) : String :=
  if 1 < ((lookupName r.name (name_year_counts results)).getD []).dedup.length then
    r.name ++ " (" ++ r.year ++ ")"
  else
    r.name

/-- The characterisation of `min(pool, key=time_seconds)` used by the
spec: `x` occurs in the pool, attains the minimal time, and every
strictly earlier pool record is strictly slower. -/
def IsFirstMinTime (pool : List Runner) (x : Runner) : Prop :=
  ∃ l₁ l₂, pool = l₁ ++ x :: l₂ ∧ (∀ q ∈ pool, x.time_seconds ≤ q.time_seconds) ∧
    ∀ q ∈ l₁, x.time_seconds < q.time_seconds

/-- The globally minimal time is attained by exactly one record. -/
def UniqueMinTime (pool : List Runner) : Prop :=
  ∀ u ∈ pool, ∀ v ∈ pool, (∀ q ∈ pool, u.time_seconds ≤ q.time_seconds) →
    u.time_seconds = v.time_seconds → u = v

instance (pool : List Runner) : Decidable (UniqueMinTime pool) := by
  unfold UniqueMinTime
  infer_instance

/-- Two records tied for the global minimum time: the first of them is
the peak chosen in step 2 but is excluded from the front, because the
older-side scan runs from the oldest to the youngest and the older tied
record is kept first. -/
def c1a : Runner := ⟨"A", 30, 100, "2023"⟩

/-- The older record tied with `c1a` for the global minimum time. -/
def c1b : Runner := ⟨"B", 40, 100, "2023"⟩

/-- A concrete pool with distinct ages and a uniquely attained minimal
time, used by several witnesses. -/
def w1 : Runner := ⟨"A", 20, 100, "2023"⟩

/-- Second record of the witness pool (the unique fastest, the peak). -/
def w2 : Runner := ⟨"B", 30, 90, "2024"⟩

/-- Third record of the witness pool. -/
def w3 : Runner := ⟨"C", 40, 95, "2025"⟩

/-- First record of the C2/C3 counterexample pool: the unique fastest. -/
def c2a : Runner := ⟨"A", 30, 50, "2023"⟩

/-- Second record: age 20, slower. -/
def c2b : Runner := ⟨"B", 20, 100, "2023"⟩

/-- Third record: the same age 20, faster than `c2b` but slower than
the peak; the younger-side scan keeps both age-20 records. -/
def c2c : Runner := ⟨"C", 20, 90, "2023"⟩

/-- Two ages lie on the same side of the peak age: both strictly
younger, or both at-or-older (the sides used by the partition of the
Pareto Engine). -/
def sameSide (peak a1 a2 : Nat) : Prop :=
  (a1 < peak ∧ a2 < peak) ∨ (peak ≤ a1 ∧ peak ≤ a2)

instance (peak a1 a2 : Nat) : Decidable (sameSide peak a1 a2) := by
  unfold sameSide
  infer_instance

/-- A record used to exhibit the empty-pool behaviour of the blocking
count. -/
def c4r : Runner := ⟨"R", 25, 120, "2024"⟩

/-- First record of the C8 counterexample pool, the step-2 peak. -/
def c8a : Runner := ⟨"A", 30, 100, "2023"⟩

/-- Second record, tied with `c8a` for the globally minimal time at a
younger age. -/
def c8b : Runner := ⟨"B", 20, 100, "2023"⟩

/-- First record of the spec's blocking-count example pool. -/
def c6a : Runner := ⟨"a", 20, 1300, "2025"⟩

/-- Second record of the example pool (evaluated record). -/
def c6b : Runner := ⟨"b", 25, 1250, "2025"⟩

/-- Third record of the example pool, the unique fastest (peak). -/
def c6c : Runner := ⟨"c", 30, 1200, "2025"⟩

/-- Reference function for the grouping loop, per single age `a`: the
record the dict holds under key `a` after traversing the list, starting
from the current holder `cur` (replaced only on strictly smaller
time). -/
def bestAt (a : Nat) : Option Runner → List Runner → Option Runner
  | cur, [] => cur
  | none, r :: rs => if r.age = a then bestAt a (some r) rs else bestAt a none rs
  | some c, r :: rs =>
    if r.age = a then
      (if r.time_seconds < c.time_seconds then bestAt a (some r) rs else bestAt a (some c) rs)
    else bestAt a (some c) rs

/-- First record of the C7 witness pool. -/
def c7a : Runner := ⟨"X", 20, 100, "2023"⟩

/-- Second record of the C7 witness pool: same age, faster. -/
def c7b : Runner := ⟨"Y", 20, 90, "2024"⟩

/-- First entry of the spec's interpolation-exactness example front. -/
def c5a : Runner := ⟨"p", 20, 1200, "2023"⟩

/-- Second entry (exact-match target). -/
def c5b : Runner := ⟨"q", 30, 1100, "2023"⟩

/-- Third entry. -/
def c5c : Runner := ⟨"r", 40, 1300, "2023"⟩

/-- First record of the C10 counterexample pool: the step-2 peak,
tied for the minimum time with an older record. -/
def c10a : Runner := ⟨"A", 30, 100, "2023"⟩

/-- Second record, tied for the minimum time at age 40. -/
def c10b : Runner := ⟨"B", 40, 100, "2023"⟩

/-- Third record, a slower younger runner kept on the front. -/
def c10c : Runner := ⟨"C", 20, 150, "2023"⟩

/-! ### Theorems -/

theorem firstMinKey_cons {β : Type} [LinearOrder β] (key : Runner → β)
    (r x : Runner) (xs : List Runner) :
    firstMinKey key r (x :: xs) = firstMinKey key (if key x < key r then x else r) xs := rfl

theorem firstMaxKey_cons {β : Type} [LinearOrder β] (key : Runner → β)
    (r x : Runner) (xs : List Runner) :
    firstMaxKey key r (x :: xs) = firstMaxKey key (if key r < key x then x else r) xs := rfl

theorem firstMinKey_mem {β : Type} [LinearOrder β] (key : Runner → β) :
    ∀ (rs : List Runner) (r : Runner), firstMinKey key r rs ∈ r :: rs := by
  intro rs
  induction rs with
  | nil => intro r; simp [firstMinKey]
  | cons x xs ih =>
    intro r
    rw [firstMinKey_cons]
    by_cases h : key x < key r
    · rw [if_pos h]
      exact List.mem_cons_of_mem r (ih x)
    · rw [if_neg h]
      rcases List.mem_cons.mp (ih r) with h1 | h1
      · rw [h1]; simp
      · simp [List.mem_cons, h1]

theorem firstMinKey_le {β : Type} [LinearOrder β] (key : Runner → β) :
    ∀ (rs : List Runner) (r : Runner) (y : Runner), y ∈ r :: rs →
      key (firstMinKey key r rs) ≤ key y := by
  intro rs
  induction rs with
  | nil =>
    intro r y hy
    rcases List.mem_cons.mp hy with h | h
    · subst h; simp [firstMinKey]
    · simp at h
  | cons x xs ih =>
    intro r y hy
    rw [firstMinKey_cons]
    by_cases h : key x < key r
    · rw [if_pos h]
      rcases List.mem_cons.mp hy with h1 | h1
      · subst h1
        calc key (firstMinKey key x xs) ≤ key x := ih x x (by simp)
          _ ≤ key y := le_of_lt h
      · exact ih x y h1
    · rw [if_neg h]
      rcases List.mem_cons.mp hy with h1 | h1
      · subst h1; exact ih y y (by simp)
      · rcases List.mem_cons.mp h1 with h2 | h2
        · subst h2
          calc key (firstMinKey key r xs) ≤ key r := ih r r (by simp)
            _ ≤ key y := not_lt.mp h
        · exact ih r y (by simp [h2])

theorem firstMaxKey_mem {β : Type} [LinearOrder β] (key : Runner → β) :
    ∀ (rs : List Runner) (r : Runner), firstMaxKey key r rs ∈ r :: rs := by
  intro rs
  induction rs with
  | nil => intro r; simp [firstMaxKey]
  | cons x xs ih =>
    intro r
    rw [firstMaxKey_cons]
    by_cases h : key r < key x
    · rw [if_pos h]
      exact List.mem_cons_of_mem r (ih x)
    · rw [if_neg h]
      rcases List.mem_cons.mp (ih r) with h1 | h1
      · rw [h1]; simp
      · simp [List.mem_cons, h1]

theorem firstMaxKey_ge {β : Type} [LinearOrder β] (key : Runner → β) :
    ∀ (rs : List Runner) (r : Runner) (y : Runner), y ∈ r :: rs →
      key y ≤ key (firstMaxKey key r rs) := by
  intro rs
  induction rs with
  | nil =>
    intro r y hy
    rcases List.mem_cons.mp hy with h | h
    · subst h; simp [firstMaxKey]
    · simp at h
  | cons x xs ih =>
    intro r y hy
    rw [firstMaxKey_cons]
    by_cases h : key r < key x
    · rw [if_pos h]
      rcases List.mem_cons.mp hy with h1 | h1
      · subst h1
        calc key y ≤ key x := le_of_lt h
          _ ≤ key (firstMaxKey key x xs) := ih x x (by simp)
      · exact ih x y h1
    · rw [if_neg h]
      rcases List.mem_cons.mp hy with h1 | h1
      · subst h1; exact ih y y (by simp)
      · rcases List.mem_cons.mp h1 with h2 | h2
        · subst h2
          calc key y ≤ key r := not_lt.mp h
            _ ≤ key (firstMaxKey key r xs) := ih r r (by simp)
        · exact ih r y (by simp [h2])

theorem firstMinKey_isFirstMinTime :
    ∀ (ps : List Runner) (p : Runner),
      IsFirstMinTime (p :: ps) (firstMinKey Runner.time_seconds p ps) := by
  intro ps
  induction ps with
  | nil =>
    intro p
    exact ⟨[], [], rfl, by simp [firstMinKey], by simp⟩
  | cons q qs ih =>
    intro p
    rw [firstMinKey_cons]
    by_cases h : q.time_seconds < p.time_seconds
    · rw [if_pos h]
      obtain ⟨l₁, l₂, hdec, hmin, hstrict⟩ := ih q
      refine ⟨p :: l₁, l₂, by rw [List.cons_append, ← hdec], ?_, ?_⟩
      · intro z hz
        rcases List.mem_cons.mp hz with h1 | h1
        · subst h1
          exact le_of_lt (lt_of_le_of_lt (hmin q (by simp)) h)
        · exact hmin z h1
      · intro z hz
        rcases List.mem_cons.mp hz with h1 | h1
        · subst h1; exact lt_of_le_of_lt (hmin q (by simp)) h
        · exact hstrict z h1
    · rw [if_neg h]
      obtain ⟨l₁, l₂, hdec, hmin, hstrict⟩ := ih p
      cases l₁ with
      | nil =>
        simp only [List.nil_append] at hdec
        injection hdec with h1 h2
        refine ⟨[], q :: qs, by simp [← h1], ?_, by simp⟩
        intro z hz
        rw [← h1]
        rcases List.mem_cons.mp hz with hz1 | hz1
        · subst hz1; exact le_rfl
        · rcases List.mem_cons.mp hz1 with hz2 | hz2
          · subst hz2; exact not_lt.mp h
          · have hm := hmin z (List.mem_cons_of_mem p hz2)
            rw [← h1] at hm; exact hm
      | cons a l₁ =>
        injection hdec with h1 h2
        simp only [List.append_eq] at h2
        refine ⟨p :: q :: l₁, l₂, by rw [List.cons_append, List.cons_append, ← h2], ?_, ?_⟩
        · intro z hz
          rcases List.mem_cons.mp hz with hz1 | hz1
          · rw [hz1]; exact hmin p (by simp)
          · rcases List.mem_cons.mp hz1 with hz2 | hz2
            · rw [hz2]
              exact le_trans (hmin p (by simp)) (not_lt.mp h)
            · exact hmin z (List.mem_cons_of_mem p hz2)
        · intro z hz
          rcases List.mem_cons.mp hz with hz1 | hz1
          · rw [hz1]; exact hstrict p (by simp [h1])
          · rcases List.mem_cons.mp hz1 with hz2 | hz2
            · rw [hz2]
              exact lt_of_lt_of_le (hstrict p (by simp [h1])) (not_lt.mp h)
            · exact hstrict z (by simp [hz2])

theorem isFirstMinTime_unique :
    ∀ {pool : List Runner} {x y : Runner},
      IsFirstMinTime pool x → IsFirstMinTime pool y → x = y := by
  intro pool
  induction pool with
  | nil =>
    intro x y hx _
    obtain ⟨l₁, l₂, hdec, -, -⟩ := hx
    exact absurd hdec.symm (List.append_ne_nil_of_right_ne_nil l₁ (by simp))
  | cons a rest ih =>
    intro x y hx hy
    obtain ⟨l₁, l₂, hdx, hminx, hstx⟩ := hx
    obtain ⟨m₁, m₂, hdy, hminy, hsty⟩ := hy
    have hymem : y ∈ a :: rest := by
      rw [hdy]; exact List.mem_append_right _ (by simp)
    have hxmem : x ∈ a :: rest := by
      rw [hdx]; exact List.mem_append_right _ (by simp)
    cases l₁ with
    | nil =>
      cases m₁ with
      | nil =>
        simp only [List.nil_append] at hdx hdy
        injection hdx with h1 _
        injection hdy with h2 _
        rw [← h1, ← h2]
      | cons c m₁ =>
        simp only [List.nil_append, List.cons_append] at hdx hdy
        injection hdx with h1 _
        injection hdy with h2 _
        exfalso
        have hy_lt : y.time_seconds < a.time_seconds := hsty a (by simp [h2])
        have hx_le : x.time_seconds ≤ y.time_seconds := hminx y hymem
        rw [h1] at hy_lt
        exact absurd (lt_of_le_of_lt hx_le hy_lt) (lt_irrefl _)
    | cons b l₁ =>
      cases m₁ with
      | nil =>
        simp only [List.nil_append, List.cons_append] at hdx hdy
        injection hdx with h1 _
        injection hdy with h2 _
        exfalso
        have hx_lt : x.time_seconds < a.time_seconds := hstx a (by simp [h1])
        have hy_le : y.time_seconds ≤ x.time_seconds := hminy x hxmem
        rw [h2] at hx_lt
        exact absurd (lt_of_le_of_lt hy_le hx_lt) (lt_irrefl _)
      | cons c m₁ =>
        simp only [List.cons_append] at hdx hdy
        injection hdx with hb hdx'
        injection hdy with hc hdy'
        refine ih ⟨l₁, l₂, hdx', ?_, fun q hq => hstx q (by simp [hq])⟩
          ⟨m₁, m₂, hdy', ?_, fun q hq => hsty q (by simp [hq])⟩
        · intro q hq
          exact hminx q (List.mem_cons_of_mem a hq)
        · intro q hq
          exact hminy q (List.mem_cons_of_mem a hq)

theorem paretoScan_none_cons (r : Runner) (rs : List Runner) :
    paretoScan none (r :: rs) = r :: paretoScan (some r.time_seconds) rs := rfl

theorem paretoScan_some_cons (b : ℚ) (r : Runner) (rs : List Runner) :
    paretoScan (some b) (r :: rs) =
      if r.time_seconds < b then r :: paretoScan (some r.time_seconds) rs
      else paretoScan (some b) rs := rfl

theorem paretoScan_sublist : ∀ (l : List Runner) (b : Option ℚ), (paretoScan b l).Sublist l := by
  intro l
  induction l with
  | nil => intro b; cases b <;> simp [paretoScan]
  | cons r rs ih =>
    intro b
    cases b with
    | none => rw [paretoScan_none_cons]; exact (ih _).cons₂ r
    | some c =>
      rw [paretoScan_some_cons]
      by_cases h : r.time_seconds < c
      · rw [if_pos h]; exact (ih _).cons₂ r
      · rw [if_neg h]; exact (ih _).cons r

theorem paretoScan_subset {l : List Runner} {b : Option ℚ} {x : Runner}
    (hx : x ∈ paretoScan b l) : x ∈ l :=
  (paretoScan_sublist l b).subset hx

theorem paretoScan_mem_lt :
    ∀ (l : List Runner) (c : ℚ) (x : Runner), x ∈ paretoScan (some c) l →
      x.time_seconds < c := by
  intro l
  induction l with
  | nil => intro c x hx; simp [paretoScan] at hx
  | cons r rs ih =>
    intro c x hx
    rw [paretoScan_some_cons] at hx
    by_cases h : r.time_seconds < c
    · rw [if_pos h] at hx
      rcases List.mem_cons.mp hx with h1 | h1
      · rw [h1]; exact h
      · exact lt_trans (ih _ x h1) h
    · rw [if_neg h] at hx
      exact ih _ x hx

theorem paretoScan_pairwise :
    ∀ (l : List Runner) (b : Option ℚ),
      (paretoScan b l).Pairwise fun u v => v.time_seconds < u.time_seconds := by
  intro l
  induction l with
  | nil => intro b; cases b <;> simp [paretoScan]
  | cons r rs ih =>
    intro b
    cases b with
    | none =>
      rw [paretoScan_none_cons]
      exact List.Pairwise.cons (fun v hv => paretoScan_mem_lt rs _ v hv) (ih _)
    | some c =>
      rw [paretoScan_some_cons]
      by_cases h : r.time_seconds < c
      · rw [if_pos h]
        exact List.Pairwise.cons (fun v hv => paretoScan_mem_lt rs _ v hv) (ih _)
      · rw [if_neg h]; exact ih _

theorem paretoScan_min :
    ∀ (l : List Runner) (b : Option ℚ),
      (∃ y ∈ l, (∀ c, b = some c → y.time_seconds < c) ∧
        ∀ z ∈ l, y.time_seconds ≤ z.time_seconds) →
      ∃ x ∈ paretoScan b l, ∀ z ∈ l, x.time_seconds ≤ z.time_seconds := by
  intro l
  induction l with
  | nil =>
    intro b h
    obtain ⟨y, hy, -⟩ := h
    simp at hy
  | cons r rs ih =>
    intro b h
    obtain ⟨y, hymem, hypass, hymin⟩ := h
    have hpass_tail : ∀ z, z ∈ rs → y.time_seconds ≤ z.time_seconds :=
      fun z hz => hymin z (List.mem_cons_of_mem r hz)
    by_cases hrmin : ∀ z ∈ r :: rs, r.time_seconds ≤ z.time_seconds
    · -- the head is itself minimal; it is kept whenever it passes the test
      have hrpass : ∀ c, b = some c → r.time_seconds < c := by
        intro c hc
        exact lt_of_le_of_lt (hrmin y hymem) (hypass c hc)
      cases b with
      | none =>
        rw [paretoScan_none_cons]
        exact ⟨r, by simp, hrmin⟩
      | some c =>
        rw [paretoScan_some_cons, if_pos (hrpass c rfl)]
        exact ⟨r, by simp, hrmin⟩
    · push_neg at hrmin
      obtain ⟨z, hzmem, hzlt⟩ := hrmin
      have hylt : y.time_seconds < r.time_seconds :=
        lt_of_le_of_lt (hymin z hzmem) hzlt
      have hymem' : y ∈ rs := by
        rcases List.mem_cons.mp hymem with h1 | h1
        · exact absurd (h1 ▸ hylt) (lt_irrefl _)
        · exact h1
      have hkey : ∃ x ∈ paretoScan (some r.time_seconds) rs,
          ∀ z ∈ rs, x.time_seconds ≤ z.time_seconds := by
        refine ih (some r.time_seconds) ⟨y, hymem', ?_, hpass_tail⟩
        intro c hc
        injection hc with hc'
        rw [← hc']; exact hylt
      cases b with
      | none =>
        rw [paretoScan_none_cons]
        obtain ⟨x, hxmem, hxmin⟩ := hkey
        refine ⟨x, List.mem_cons_of_mem r hxmem, ?_⟩
        intro w hw
        rcases List.mem_cons.mp hw with h1 | h1
        · rw [h1]; exact le_of_lt (lt_of_le_of_lt (hxmin y hymem') hylt)
        · exact hxmin w h1
      | some c =>
        rw [paretoScan_some_cons]
        by_cases hr : r.time_seconds < c
        · rw [if_pos hr]
          obtain ⟨x, hxmem, hxmin⟩ := hkey
          refine ⟨x, List.mem_cons_of_mem r hxmem, ?_⟩
          intro w hw
          rcases List.mem_cons.mp hw with h1 | h1
          · rw [h1]; exact le_of_lt (lt_of_le_of_lt (hxmin y hymem') hylt)
          · exact hxmin w h1
        · rw [if_neg hr]
          have : ∃ x ∈ paretoScan (some c) rs,
              ∀ z ∈ rs, x.time_seconds ≤ z.time_seconds := by
            refine ih (some c) ⟨y, hymem', ?_, hpass_tail⟩
            intro d hd
            injection hd with hd'
            rw [← hd']; exact hypass c rfl
          obtain ⟨x, hxmem, hxmin⟩ := this
          refine ⟨x, hxmem, ?_⟩
          intro w hw
          rcases List.mem_cons.mp hw with h1 | h1
          · rw [h1]
            exact le_of_lt (lt_of_le_of_lt (hxmin y hymem') hylt)
          · exact hxmin w h1

theorem paretoScan_excluded {R : Runner → Runner → Prop} :
    ∀ (l : List Runner) (b : Option ℚ), l.Pairwise R → ∀ x ∈ l, x ∉ paretoScan b l →
      (∃ c, b = some c ∧ ¬ x.time_seconds < c) ∨
      ∃ s ∈ paretoScan b l, R s x ∧ s.time_seconds ≤ x.time_seconds := by
  intro l
  induction l with
  | nil => intro b _ x hx; simp at hx
  | cons r rs ih =>
    intro b hpw x hxmem hxnot
    obtain ⟨hr, hpw'⟩ := List.pairwise_cons.mp hpw
    have step_kept : x ∈ r :: rs → x ∉ r :: paretoScan (some r.time_seconds) rs →
        (∃ c, b = some c ∧ ¬ x.time_seconds < c) ∨
        ∃ s ∈ r :: paretoScan (some r.time_seconds) rs,
          R s x ∧ s.time_seconds ≤ x.time_seconds := by
      intro hmem hnot
      have hxr : x ≠ r := fun h => hnot (h ▸ List.mem_cons_self r _)
      have hxrs : x ∈ rs := by
        rcases List.mem_cons.mp hmem with h1 | h1
        · exact absurd h1 hxr
        · exact h1
      have hxnot' : x ∉ paretoScan (some r.time_seconds) rs :=
        fun h => hnot (List.mem_cons_of_mem r h)
      rcases ih (some r.time_seconds) hpw' x hxrs hxnot' with h1 | h1
      · obtain ⟨c, hc, hnlt⟩ := h1
        injection hc with hc'
        right
        exact ⟨r, List.mem_cons_self r _, hr x hxrs, not_lt.mp (hc' ▸ hnlt)⟩
      · obtain ⟨s, hs, hRs, hle⟩ := h1
        right
        exact ⟨s, List.mem_cons_of_mem r hs, hRs, hle⟩
    cases b with
    | none =>
      rw [paretoScan_none_cons] at hxnot ⊢
      exact step_kept hxmem hxnot
    | some c =>
      by_cases hrc : r.time_seconds < c
      · rw [paretoScan_some_cons, if_pos hrc] at hxnot ⊢
        exact step_kept hxmem hxnot
      · rw [paretoScan_some_cons, if_neg hrc] at hxnot ⊢
        rcases List.mem_cons.mp hxmem with h1 | h1
        · left; exact ⟨c, rfl, h1 ▸ hrc⟩
        · exact ih (some c) hpw' x h1 hxnot

theorem paretoScan_eq_self :
    ∀ (l : List Runner) (b : Option ℚ),
      (l.Pairwise fun u v => v.time_seconds < u.time_seconds) →
      (∀ y c, l.head? = some y → b = some c → y.time_seconds < c) →
      paretoScan b l = l := by
  intro l
  induction l with
  | nil => intro b _ _; cases b <;> rfl
  | cons r rs ih =>
    intro b hpw hhead
    obtain ⟨hr, hpw'⟩ := List.pairwise_cons.mp hpw
    have htail : paretoScan (some r.time_seconds) rs = rs := by
      refine ih (some r.time_seconds) hpw' ?_
      intro y c hy hc
      injection hc with hc'
      rw [← hc']
      exact hr y (List.mem_of_mem_head? hy)
    cases b with
    | none => rw [paretoScan_none_cons, htail]
    | some c =>
      have hrc : r.time_seconds < c := hhead r c rfl rfl
      rw [paretoScan_some_cons, if_pos hrc, htail]

theorem sortByAge_sorted (l : List Runner) : (sortByAge l).Pairwise ageLE :=
  List.sorted_insertionSort ageLE l

theorem sortByAge_perm (l : List Runner) : (sortByAge l).Perm l :=
  List.perm_insertionSort ageLE l

theorem mem_sortByAge {l : List Runner} {x : Runner} : x ∈ sortByAge l ↔ x ∈ l :=
  (sortByAge_perm l).mem_iff

theorem sortByAge_eq_self {l : List Runner} (h : l.Pairwise ageLE) : sortByAge l = l :=
  List.Sorted.insertionSort_eq h

/-- Any two pool members with equal ages coincide when the pool has
pairwise distinct ages. -/
theorem eq_of_age_eq {pool : List Runner}
    (hd : pool.Pairwise fun u v => u.age ≠ v.age) {u v : Runner}
    (hu : u ∈ pool) (hv : v ∈ pool) (h : u.age = v.age) : u = v := by
  by_contra hne
  have hsymm : Symmetric fun u v : Runner => u.age ≠ v.age :=
    fun _ _ hab h2 => hab h2.symm
  exact hd.forall hsymm hu hv hne h

/-- In a list pairwise related by strictly increasing ages together with
a side relation, the side relation holds for any two members in
increasing-age order. -/
theorem rel_of_pairwise_age_lt {T : Runner → Runner → Prop} :
    ∀ {l : List Runner}, (l.Pairwise fun u v => u.age < v.age ∧ T u v) →
      ∀ u ∈ l, ∀ v ∈ l, u.age < v.age → T u v := by
  intro l
  induction l with
  | nil => intro _ u hu; simp at hu
  | cons a as ih =>
    intro hpw u hu v hv hlt
    obtain ⟨ha, hpw'⟩ := List.pairwise_cons.mp hpw
    rcases List.mem_cons.mp hu with h1 | h1
    · rcases List.mem_cons.mp hv with h2 | h2
      · exact absurd (h2 ▸ h1 ▸ hlt) (lt_irrefl _)
      · exact (h1 ▸ ha v h2).2
    · rcases List.mem_cons.mp hv with h2 | h2
      · exact absurd (lt_trans (h2 ▸ hlt) (ha u h1).1) (lt_irrefl _)
      · exact ih hpw' u h1 v h2 hlt

theorem yFront_mem {peak : Nat} {pool : List Runner} {x : Runner}
    (hx : x ∈ yFront peak pool) : x ∈ pool ∧ x.age < peak := by
  have hx' := paretoScan_subset hx
  obtain ⟨h1, h2⟩ := List.mem_filter.mp hx'
  exact ⟨mem_sortByAge.mp h1, of_decide_eq_true h2⟩

theorem oFront_mem {peak : Nat} {pool : List Runner} {x : Runner}
    (hx : x ∈ oFront peak pool) : x ∈ pool ∧ peak ≤ x.age := by
  have hx1 : x ∈ paretoScan none
      (((sortByAge pool).filter fun q => decide (peak ≤ q.age)).reverse) :=
    List.mem_reverse.mp hx
  have hx2 := List.mem_reverse.mp (paretoScan_subset hx1)
  obtain ⟨h1, h2⟩ := List.mem_filter.mp hx2
  exact ⟨mem_sortByAge.mp h1, of_decide_eq_true h2⟩

theorem yFront_pairwise (peak : Nat) (pool : List Runner) :
    (yFront peak pool).Pairwise fun u v => u.age ≤ v.age ∧ v.time_seconds < u.time_seconds := by
  have hages : (yFront peak pool).Pairwise fun u v => u.age ≤ v.age := by
    have hfil : ((sortByAge pool).filter fun x => decide (x.age < peak)).Pairwise ageLE :=
      (sortByAge_sorted pool).sublist (List.filter_sublist _)
    exact hfil.sublist (paretoScan_sublist _ _)
  exact hages.and (paretoScan_pairwise _ _)

theorem oFront_pairwise (peak : Nat) (pool : List Runner) :
    (oFront peak pool).Pairwise fun u v => u.age ≤ v.age ∧ u.time_seconds < v.time_seconds := by
  have hfil : ((sortByAge pool).filter fun x => decide (peak ≤ x.age)).Pairwise ageLE :=
    (sortByAge_sorted pool).sublist (List.filter_sublist _)
  have hrev : (((sortByAge pool).filter fun x => decide (peak ≤ x.age)).reverse).Pairwise
      fun u v => v.age ≤ u.age := by
    rw [List.pairwise_reverse]
    exact hfil
  have hscan_age : (paretoScan none
      (((sortByAge pool).filter fun x => decide (peak ≤ x.age)).reverse)).Pairwise
      fun u v => v.age ≤ u.age :=
    hrev.sublist (paretoScan_sublist _ _)
  have hscan := hscan_age.and (paretoScan_pairwise
    (((sortByAge pool).filter fun x => decide (peak ≤ x.age)).reverse) none)
  rw [oFront, List.pairwise_reverse]
  exact hscan.imp fun h => ⟨h.1, h.2⟩

theorem oFront_ne_nil {peak : Nat} {pool : List Runner} {f : Runner}
    (hf : f ∈ pool) (hfa : peak ≤ f.age) : oFront peak pool ≠ [] := by
  have hmem : f ∈ ((sortByAge pool).filter fun x => decide (peak ≤ x.age)).reverse := by
    rw [List.mem_reverse, List.mem_filter]
    exact ⟨mem_sortByAge.mpr hf, decide_eq_true hfa⟩
  cases hL : ((sortByAge pool).filter fun x => decide (peak ≤ x.age)).reverse with
  | nil => rw [hL] at hmem; simp at hmem
  | cons r rs =>
    rw [oFront, hL, paretoScan_none_cons]
    simp

theorem oFront_head_min {peak : Nat} {pool : List Runner} {f : Runner}
    (hf : f ∈ pool) (hfa : peak ≤ f.age)
    (hfmin : ∀ q ∈ pool, f.time_seconds ≤ q.time_seconds)
    (h : oFront peak pool ≠ []) :
    ∀ q ∈ pool, ((oFront peak pool).head h).time_seconds ≤ q.time_seconds := by
  have hmemf : f ∈ ((sortByAge pool).filter fun x => decide (peak ≤ x.age)).reverse := by
    rw [List.mem_reverse, List.mem_filter]
    exact ⟨mem_sortByAge.mpr hf, decide_eq_true hfa⟩
  obtain ⟨x, hxscan, hxmin⟩ := paretoScan_min
    (((sortByAge pool).filter fun q => decide (peak ≤ q.age)).reverse) none
    ⟨f, hmemf, by simp, fun z hz => by
      have hz1 := List.mem_reverse.mp hz
      exact hfmin z (mem_sortByAge.mp (List.mem_filter.mp hz1).1)⟩
  have hxoF : x ∈ oFront peak pool := List.mem_reverse.mpr hxscan
  have hpw := oFront_pairwise peak pool
  intro q hq
  have hhead_le_x : ((oFront peak pool).head h).time_seconds ≤ x.time_seconds := by
    have hco := List.head_cons_tail (oFront peak pool) h
    rw [← hco] at hxoF hpw
    rcases List.mem_cons.mp hxoF with h1 | h1
    · rw [h1]
    · exact le_of_lt ((List.rel_of_pairwise_cons hpw h1).2)
  calc ((oFront peak pool).head h).time_seconds
      ≤ x.time_seconds := hhead_le_x
    _ ≤ f.time_seconds := hxmin f hmemf
    _ ≤ q.time_seconds := hfmin q hq

theorem yFront_excluded {peak : Nat} {pool : List Runner} {x : Runner}
    (hx : x ∈ pool) (hxa : x.age < peak) (hnot : x ∉ yFront peak pool) :
    ∃ s ∈ yFront peak pool, s.age ≤ x.age ∧ s.time_seconds ≤ x.time_seconds := by
  have hmem : x ∈ (sortByAge pool).filter fun q => decide (q.age < peak) := by
    rw [List.mem_filter]
    exact ⟨mem_sortByAge.mpr hx, decide_eq_true hxa⟩
  have hpw : ((sortByAge pool).filter fun q => decide (q.age < peak)).Pairwise ageLE :=
    (sortByAge_sorted pool).sublist (List.filter_sublist _)
  rcases paretoScan_excluded _ none hpw x hmem hnot with h | h
  · obtain ⟨c, hc, -⟩ := h
    exact absurd hc (by simp)
  · obtain ⟨s, hs, hR, hle⟩ := h
    exact ⟨s, hs, hR, hle⟩

theorem oFront_excluded {peak : Nat} {pool : List Runner} {x : Runner}
    (hx : x ∈ pool) (hxa : peak ≤ x.age) (hnot : x ∉ oFront peak pool) :
    ∃ s ∈ oFront peak pool, x.age ≤ s.age ∧ s.time_seconds ≤ x.time_seconds := by
  have hmem : x ∈ ((sortByAge pool).filter fun q => decide (peak ≤ q.age)).reverse := by
    rw [List.mem_reverse, List.mem_filter]
    exact ⟨mem_sortByAge.mpr hx, decide_eq_true hxa⟩
  have hpw : (((sortByAge pool).filter fun q => decide (peak ≤ q.age)).reverse).Pairwise
      fun u v => v.age ≤ u.age := by
    rw [List.pairwise_reverse]
    exact (sortByAge_sorted pool).sublist (List.filter_sublist _)
  have hnot' : x ∉ paretoScan none
      (((sortByAge pool).filter fun q => decide (peak ≤ q.age)).reverse) :=
    fun hmem' => hnot (List.mem_reverse.mpr hmem')
  rcases paretoScan_excluded _ none hpw x hmem hnot' with h | h
  · obtain ⟨c, hc, -⟩ := h
    exact absurd hc (by simp)
  · obtain ⟨s, hs, hR, hle⟩ := h
    exact ⟨s, List.mem_reverse.mpr hs, hR, hle⟩

theorem oFront_oldest {peak : Nat} {pool : List Runner} {f : Runner}
    (hf : f ∈ pool) (hfa : peak ≤ f.age) :
    ∃ z ∈ oFront peak pool, ∀ q ∈ pool, peak ≤ q.age → q.age ≤ z.age := by
  have hmem : f ∈ ((sortByAge pool).filter fun x => decide (peak ≤ x.age)).reverse := by
    rw [List.mem_reverse, List.mem_filter]
    exact ⟨mem_sortByAge.mpr hf, decide_eq_true hfa⟩
  have hpw : (((sortByAge pool).filter fun q => decide (peak ≤ q.age)).reverse).Pairwise
      fun u v => v.age ≤ u.age := by
    rw [List.pairwise_reverse]
    exact (sortByAge_sorted pool).sublist (List.filter_sublist _)
  cases hL : ((sortByAge pool).filter fun x => decide (peak ≤ x.age)).reverse with
  | nil => rw [hL] at hmem; simp at hmem
  | cons r rs =>
    rw [hL] at hpw
    refine ⟨r, ?_, ?_⟩
    · rw [oFront, hL, paretoScan_none_cons, List.mem_reverse]
      simp
    · intro q hq hqa
      have hqmem : q ∈ r :: rs := by
        rw [← hL, List.mem_reverse, List.mem_filter]
        exact ⟨mem_sortByAge.mpr hq, decide_eq_true hqa⟩
      rcases List.mem_cons.mp hqmem with h1 | h1
      · rw [h1]
      · exact List.rel_of_pairwise_cons hpw h1

theorem yFront_youngest {peak : Nat} {pool : List Runner} {x : Runner}
    (hx : x ∈ pool) (hxa : x.age < peak) :
    ∃ z ∈ yFront peak pool, ∀ q ∈ pool, q.age < peak → z.age ≤ q.age := by
  have hmem : x ∈ (sortByAge pool).filter fun q => decide (q.age < peak) := by
    rw [List.mem_filter]
    exact ⟨mem_sortByAge.mpr hx, decide_eq_true hxa⟩
  have hpw : ((sortByAge pool).filter fun q => decide (q.age < peak)).Pairwise ageLE :=
    (sortByAge_sorted pool).sublist (List.filter_sublist _)
  cases hL : (sortByAge pool).filter fun q => decide (q.age < peak) with
  | nil => rw [hL] at hmem; simp at hmem
  | cons r rs =>
    rw [hL] at hpw
    refine ⟨r, ?_, ?_⟩
    · rw [yFront, hL, paretoScan_none_cons]
      simp
    · intro q hq hqa
      have hqmem : q ∈ r :: rs := by
        rw [← hL, List.mem_filter]
        exact ⟨mem_sortByAge.mpr hq, decide_eq_true hqa⟩
      rcases List.mem_cons.mp hqmem with h1 | h1
      · rw [h1]
      · exact List.rel_of_pairwise_cons hpw h1

theorem front_cons (p : Runner) (ps : List Runner) :
    compute_pareto_front (p :: ps) =
      yFront (firstMinKey Runner.time_seconds p ps).age (p :: ps) ++
      oFront (firstMinKey Runner.time_seconds p ps).age (p :: ps) := rfl

theorem oFront_peak_ne_nil (p : Runner) (ps : List Runner) :
    oFront (firstMinKey Runner.time_seconds p ps).age (p :: ps) ≠ [] :=
  oFront_ne_nil (firstMinKey_mem Runner.time_seconds ps p) le_rfl

theorem oFront_peak_head_min (p : Runner) (ps : List Runner)
    (h : oFront (firstMinKey Runner.time_seconds p ps).age (p :: ps) ≠ []) :
    ∀ q ∈ p :: ps,
      ((oFront (firstMinKey Runner.time_seconds p ps).age (p :: ps)).head h).time_seconds ≤
        q.time_seconds :=
  oFront_head_min (firstMinKey_mem Runner.time_seconds ps p) le_rfl
    (firstMinKey_le Runner.time_seconds ps p) h

theorem oFront_peak_head_eq_fastest (p : Runner) (ps : List Runner)
    (hu : UniqueMinTime (p :: ps))
    (h : oFront (firstMinKey Runner.time_seconds p ps).age (p :: ps) ≠ []) :
    (oFront (firstMinKey Runner.time_seconds p ps).age (p :: ps)).head h =
      firstMinKey Runner.time_seconds p ps := by
  have hmem : (oFront (firstMinKey Runner.time_seconds p ps).age (p :: ps)).head h ∈ p :: ps :=
    (oFront_mem (List.head_mem h)).1
  have hmin := oFront_peak_head_min p ps h
  have heq : ((oFront (firstMinKey Runner.time_seconds p ps).age (p :: ps)).head h).time_seconds =
      (firstMinKey Runner.time_seconds p ps).time_seconds :=
    le_antisymm (hmin _ (firstMinKey_mem Runner.time_seconds ps p))
      (firstMinKey_le Runner.time_seconds ps p _ hmem)
  exact hu _ hmem _ (firstMinKey_mem Runner.time_seconds ps p) hmin heq

/-- C1, counterexample: on the pool `[(30,100), (40,100)]` the record
chosen in step 2 (the first record attaining the globally minimal
time, here the 30-year-old) is NOT contained in the computed front,
which consists of the 40-year-old only. -/
theorem C1_counterexample :
    firstMinKey Runner.time_seconds c1a [c1b] = c1a ∧
    firstMinKey Runner.time_seconds c1a [c1b] ∉ compute_pareto_front [c1a, c1b] := by
  decide

/-- C1, amended: for every non-empty input the front contains a record
attaining the globally minimal time, and it contains the step-2 peak
record itself (the first input record attaining that minimum) whenever
the minimum time is uniquely attained. -/
theorem C1_amended_front_min (p : Runner) (ps : List Runner) :
    (∃ r ∈ compute_pareto_front (p :: ps),
      ∀ q ∈ p :: ps, r.time_seconds ≤ q.time_seconds) ∧
    (UniqueMinTime (p :: ps) →
      firstMinKey Runner.time_seconds p ps ∈ compute_pareto_front (p :: ps)) := by
  have hne := oFront_peak_ne_nil p ps
  constructor
  · refine ⟨(oFront (firstMinKey Runner.time_seconds p ps).age (p :: ps)).head hne, ?_, ?_⟩
    · rw [front_cons]
      exact List.mem_append_right _ (List.head_mem hne)
    · exact oFront_peak_head_min p ps hne
  · intro hu
    rw [front_cons]
    have hh := List.head_mem hne
    rw [oFront_peak_head_eq_fastest p ps hu hne] at hh
    exact List.mem_append_right _ hh

/-- C1 witness: on the three-record witness pool the step-2 peak record
is a member of the computed front. -/
theorem C1_witness :
    firstMinKey Runner.time_seconds w1 [w2, w3] ∈ compute_pareto_front [w1, w2, w3] :=
  (C1_amended_front_min w1 [w2, w3]).2 (by decide)

theorem yFront_pairwise_strict {peak : Nat} {pool : List Runner}
    (hd : pool.Pairwise fun u v => u.age ≠ v.age) :
    (yFront peak pool).Pairwise fun u v => u.age < v.age ∧ v.time_seconds < u.time_seconds := by
  refine (yFront_pairwise peak pool).imp_of_mem ?_
  intro a b ha hb hab
  refine ⟨lt_of_le_of_ne hab.1 ?_, hab.2⟩
  intro hEq
  have : a = b := eq_of_age_eq hd (yFront_mem ha).1 (yFront_mem hb).1 hEq
  exact absurd (this ▸ hab.2) (lt_irrefl _)

theorem oFront_pairwise_strict {peak : Nat} {pool : List Runner}
    (hd : pool.Pairwise fun u v => u.age ≠ v.age) :
    (oFront peak pool).Pairwise fun u v => u.age < v.age ∧ u.time_seconds < v.time_seconds := by
  refine (oFront_pairwise peak pool).imp_of_mem ?_
  intro a b ha hb hab
  refine ⟨lt_of_le_of_ne hab.1 ?_, hab.2⟩
  intro hEq
  have : a = b := eq_of_age_eq hd (oFront_mem ha).1 (oFront_mem hb).1 hEq
  exact absurd (this ▸ hab.2) (lt_irrefl _)

theorem take_length_succ_append :
    ∀ (l₁ l₂ : List Runner), (l₁ ++ l₂).take (l₁.length + 1) = l₁ ++ l₂.take 1 := by
  intro l₁
  induction l₁ with
  | nil => intro l₂; simp
  | cons a t ih => intro l₂; simp [ih]

theorem get_append_length :
    ∀ (l₁ : List Runner) (h : Runner) (t : List Runner)
      (hlen : l₁.length < (l₁ ++ h :: t).length),
      (l₁ ++ h :: t).get ⟨l₁.length, hlen⟩ = h := by
  intro l₁
  induction l₁ with
  | nil => intro h t hlen; rfl
  | cons a l ih =>
    intro h t hlen
    simpa using ih h t (by simp)

/-- C2, counterexample: on the pool `[(30,50),(20,100),(20,90)]` the
front is `[(20,100),(20,90),(30,50)]`, whose ages do not strictly
increase — the ages-strictly-increase conjunct of the claim fails. -/
theorem C2_counterexample :
    ¬ (compute_pareto_front [c2a, c2b, c2c]).Pairwise fun u v => u.age < v.age := by
  decide

/-- C2, amended: when no two input records share an age and the global
minimum time is uniquely attained, the front has strictly increasing
ages and there is an index `q` — the peak entry, attaining the global
minimum time — such that the times strictly decrease over positions
`0..q` and strictly increase over positions `q..end`. -/
theorem C2_amended_front_shape (p : Runner) (ps : List Runner)
    (hd : (p :: ps).Pairwise fun u v => u.age ≠ v.age)
    (hu : UniqueMinTime (p :: ps)) :
    (compute_pareto_front (p :: ps)).Pairwise (fun u v => u.age < v.age) ∧
    ∃ q, ∃ hq : q < (compute_pareto_front (p :: ps)).length,
      (∀ r ∈ p :: ps,
        ((compute_pareto_front (p :: ps)).get ⟨q, hq⟩).time_seconds ≤ r.time_seconds) ∧
      ((compute_pareto_front (p :: ps)).take (q + 1)).Pairwise
        (fun u v => v.time_seconds < u.time_seconds) ∧
      ((compute_pareto_front (p :: ps)).drop q).Pairwise
        (fun u v => u.time_seconds < v.time_seconds) := by
  have hne := oFront_peak_ne_nil p ps
  obtain ⟨oh, ot, hoF⟩ := List.exists_cons_of_ne_nil hne
  have hhead : (oFront (firstMinKey Runner.time_seconds p ps).age (p :: ps)).head hne = oh := by
    have h2 : (oFront (firstMinKey Runner.time_seconds p ps).age (p :: ps)).head? = some oh := by
      rw [hoF]; rfl
    rw [List.head?_eq_head hne] at h2
    exact Option.some.inj h2
  have hoh_min : ∀ r ∈ p :: ps, oh.time_seconds ≤ r.time_seconds := by
    intro r hr
    have := oFront_peak_head_min p ps hne r hr
    rw [hhead] at this; exact this
  have hoh_mem_oF : oh ∈ oFront (firstMinKey Runner.time_seconds p ps).age (p :: ps) := by
    rw [hoF]; simp
  have hoh_pool := oFront_mem hoh_mem_oF
  have hyF : (yFront (firstMinKey Runner.time_seconds p ps).age (p :: ps)).Pairwise
      fun u v => u.age < v.age ∧ v.time_seconds < u.time_seconds :=
    yFront_pairwise_strict hd
  have hoFpw : (oFront (firstMinKey Runner.time_seconds p ps).age (p :: ps)).Pairwise
      fun u v => u.age < v.age ∧ u.time_seconds < v.time_seconds :=
    oFront_pairwise_strict hd
  have hyF_oh_lt : ∀ u ∈ yFront (firstMinKey Runner.time_seconds p ps).age (p :: ps),
      oh.time_seconds < u.time_seconds := by
    intro u hu'
    obtain ⟨hup, hua⟩ := yFront_mem hu'
    rcases lt_or_eq_of_le (hoh_min u hup) with h1 | h1
    · exact h1
    · exfalso
      have humin : ∀ q ∈ p :: ps, u.time_seconds ≤ q.time_seconds := by
        intro q hq; rw [← h1]; exact hoh_min q hq
      have : u = oh := hu u hup oh hoh_pool.1 humin h1.symm
      rw [this] at hua
      exact absurd (lt_of_le_of_lt hoh_pool.2 hua) (lt_irrefl _)
  constructor
  · rw [front_cons, List.pairwise_append]
    refine ⟨hyF.imp (fun h => h.1), hoFpw.imp (fun h => h.1), ?_⟩
    intro a ha b hb
    exact lt_of_lt_of_le (yFront_mem ha).2 (oFront_mem hb).2
  · have hq : (yFront (firstMinKey Runner.time_seconds p ps).age (p :: ps)).length <
        (compute_pareto_front (p :: ps)).length := by
      rw [front_cons, List.length_append, hoF]
      simp
    have hFeq : compute_pareto_front (p :: ps) =
        yFront (firstMinKey Runner.time_seconds p ps).age (p :: ps) ++ oh :: ot := by
      rw [front_cons, hoF]
    refine ⟨(yFront (firstMinKey Runner.time_seconds p ps).age (p :: ps)).length, hq, ?_, ?_, ?_⟩
    · intro r hr
      have hget := List.get_of_eq hFeq
        ⟨(yFront (firstMinKey Runner.time_seconds p ps).age (p :: ps)).length, hq⟩
      rw [hget, get_append_length]
      exact hoh_min r hr
    · rw [front_cons, hoF, take_length_succ_append]
      rw [List.pairwise_append]
      refine ⟨hyF.imp (fun h => h.2), by simp, ?_⟩
      intro a ha b hb
      simp only [List.take_succ_cons, List.take_zero, List.mem_singleton] at hb
      rw [hb]
      exact hyF_oh_lt a ha
    · rw [front_cons, List.drop_left]
      exact hoFpw.imp (fun h => h.2)

/-- C2 witness: on the witness pool the front ages strictly increase
(first conjunct of the amended claim, hypotheses discharged). -/
theorem C2_witness :
    (compute_pareto_front [w1, w2, w3]).Pairwise fun u v => u.age < v.age :=
  (C2_amended_front_shape w1 [w2, w3] (by decide) (by decide)).1

/-- C3, counterexample: the front of `[(30,50),(20,100),(20,90)]`
contains the two distinct entries `(20,100)` and `(20,90)`, which are on
the same side of the peak age 30, equally far from it, with the second
not slower than the first — a dominated pair inside the front. -/
theorem C3_counterexample :
    c2b ∈ compute_pareto_front [c2a, c2b, c2c] ∧
    c2c ∈ compute_pareto_front [c2a, c2b, c2c] ∧
    c2b ≠ c2c ∧
    (firstMinKey Runner.time_seconds c2a [c2b, c2c]).age = 30 ∧
    sameSide 30 c2b.age c2c.age ∧
    |(c2c.age : ℤ) - 30| ≥ |(c2b.age : ℤ) - 30| ∧
    c2c.time_seconds ≤ c2b.time_seconds := by
  decide

/-- C3, amended: when no two input records share an age, the front is
non-dominated — for distinct front entries on the same side of the peak
age with the second at least as far from the peak, the second is
strictly slower than the first. -/
theorem C3_amended_nondomination (p : Runner) (ps : List Runner)
    (hd : (p :: ps).Pairwise fun u v => u.age ≠ v.age) :
    ∀ r1 ∈ compute_pareto_front (p :: ps), ∀ r2 ∈ compute_pareto_front (p :: ps),
      r1 ≠ r2 →
      sameSide (firstMinKey Runner.time_seconds p ps).age r1.age r2.age →
      |(r2.age : ℤ) - ((firstMinKey Runner.time_seconds p ps).age : ℤ)| ≥
        |(r1.age : ℤ) - ((firstMinKey Runner.time_seconds p ps).age : ℤ)| →
      r1.time_seconds < r2.time_seconds := by
  intro r1 hr1 r2 hr2 hne hside habs
  have hages : r1.age ≠ r2.age := by
    intro h
    exact hne (eq_of_age_eq hd
      ((List.mem_append.mp (hr1 : r1 ∈ _ ++ _)).elim (fun h' => (yFront_mem h').1)
        (fun h' => (oFront_mem h').1))
      ((List.mem_append.mp (hr2 : r2 ∈ _ ++ _)).elim (fun h' => (yFront_mem h').1)
        (fun h' => (oFront_mem h').1)) h)
  rcases hside with ⟨h1, h2⟩ | ⟨h1, h2⟩
  · -- both on the younger side: both members of the younger half
    have hm1 : r1 ∈ yFront (firstMinKey Runner.time_seconds p ps).age (p :: ps) := by
      rcases List.mem_append.mp (hr1 : r1 ∈ _ ++ _) with h | h
      · exact h
      · exact absurd (oFront_mem h).2 (not_le.mpr h1)
    have hm2 : r2 ∈ yFront (firstMinKey Runner.time_seconds p ps).age (p :: ps) := by
      rcases List.mem_append.mp (hr2 : r2 ∈ _ ++ _) with h | h
      · exact h
      · exact absurd (oFront_mem h).2 (not_le.mpr h2)
    have hlt : r2.age < r1.age := by
      have hc1 : ((r1.age : ℤ) - ((firstMinKey Runner.time_seconds p ps).age : ℤ)) < 0 := by
        have : (r1.age : ℤ) < ((firstMinKey Runner.time_seconds p ps).age : ℤ) := by
          exact_mod_cast h1
        omega
      have hc2 : ((r2.age : ℤ) - ((firstMinKey Runner.time_seconds p ps).age : ℤ)) < 0 := by
        have : (r2.age : ℤ) < ((firstMinKey Runner.time_seconds p ps).age : ℤ) := by
          exact_mod_cast h2
        omega
      rw [abs_of_neg hc1, abs_of_neg hc2] at habs
      have : (r2.age : ℤ) ≤ (r1.age : ℤ) := by omega
      have hle : r2.age ≤ r1.age := by exact_mod_cast this
      exact lt_of_le_of_ne hle (fun h => hages h.symm)
    exact rel_of_pairwise_age_lt (yFront_pairwise_strict hd) r2 hm2 r1 hm1 hlt
  · -- both at or older than the peak: both members of the older half
    have hm1 : r1 ∈ oFront (firstMinKey Runner.time_seconds p ps).age (p :: ps) := by
      rcases List.mem_append.mp (hr1 : r1 ∈ _ ++ _) with h | h
      · exact absurd (yFront_mem h).2 (not_lt.mpr h1)
      · exact h
    have hm2 : r2 ∈ oFront (firstMinKey Runner.time_seconds p ps).age (p :: ps) := by
      rcases List.mem_append.mp (hr2 : r2 ∈ _ ++ _) with h | h
      · exact absurd (yFront_mem h).2 (not_lt.mpr h2)
      · exact h
    have hlt : r1.age < r2.age := by
      have hc1 : 0 ≤ ((r1.age : ℤ) - ((firstMinKey Runner.time_seconds p ps).age : ℤ)) := by
        have : ((firstMinKey Runner.time_seconds p ps).age : ℤ) ≤ (r1.age : ℤ) := by
          exact_mod_cast h1
        omega
      have hc2 : 0 ≤ ((r2.age : ℤ) - ((firstMinKey Runner.time_seconds p ps).age : ℤ)) := by
        have : ((firstMinKey Runner.time_seconds p ps).age : ℤ) ≤ (r2.age : ℤ) := by
          exact_mod_cast h2
        omega
      rw [abs_of_nonneg hc1, abs_of_nonneg hc2] at habs
      have : (r1.age : ℤ) ≤ (r2.age : ℤ) := by omega
      have hle : r1.age ≤ r2.age := by exact_mod_cast this
      exact lt_of_le_of_ne hle hages
    exact rel_of_pairwise_age_lt (oFront_pairwise_strict hd) r1 hm1 r2 hm2 hlt

/-- C3 witness: applying the amended non-domination theorem to the two
older-side front entries of the witness pool yields that the farther
entry is strictly slower. -/
theorem C3_witness : w2.time_seconds < w3.time_seconds :=
  C3_amended_nondomination w1 [w2, w3] (by decide) w2 (by decide) w3 (by decide)
    (by decide) (by decide) (by decide)

/-- C4, counterexample: on an empty pool `count_blocking_runners`
reaches `min([])`, which raises `ValueError` (modelled `none`), instead
of returning a neutral result without error as the claim states. -/
theorem C4_counterexample : count_blocking_runners c4r [] = none := rfl

/-- C4, amended: the Age Reducer, the Pareto Engine and
`get_pareto_time_at_age` return an empty or `None` result without
error on empty input, and `count_blocking_runners` returns a count on
every non-empty pool (it fails only on the empty pool, which its
callers — iterating over the pool itself — never pass). -/
theorem C4_amended_empty_safe :
    get_fastest_at_each_age [] = [] ∧
    compute_pareto_front [] = [] ∧
    (∀ a : Nat, get_pareto_time_at_age a [] = none) ∧
    (∀ (r p : Runner) (ps : List Runner),
      (count_blocking_runners r (p :: ps)).isSome = true) := by
  refine ⟨rfl, rfl, fun a => rfl, ?_⟩
  intro r p ps
  by_cases h1 : r.age < (firstMinKey Runner.time_seconds p ps).age
  · simp [count_blocking_runners, h1]
  · by_cases h2 : (firstMinKey Runner.time_seconds p ps).age < r.age
    · simp [count_blocking_runners, h1, h2]
    · by_cases h3 : r.time_seconds = (firstMinKey Runner.time_seconds p ps).time_seconds
      · simp [count_blocking_runners, h1, h2, h3]
      · simp [count_blocking_runners, h1, h2, h3]

/-- C4 witness: on a concrete singleton pool the blocking count is
defined (no exception). -/
theorem C4_witness : (count_blocking_runners c4r [c4r]).isSome = true :=
  C4_amended_empty_safe.2.2.2 c4r c4r []

theorem front_subset_pool {p : Runner} {ps : List Runner} {r : Runner}
    (hr : r ∈ compute_pareto_front (p :: ps)) : r ∈ p :: ps := by
  rw [front_cons] at hr
  rcases List.mem_append.mp hr with h | h
  · exact (yFront_mem h).1
  · exact (oFront_mem h).1

theorem front_pairwise_ageLE (p : Runner) (ps : List Runner) :
    (compute_pareto_front (p :: ps)).Pairwise ageLE := by
  rw [front_cons, List.pairwise_append]
  refine ⟨(yFront_pairwise _ _).imp (fun h => h.1),
    (oFront_pairwise _ _).imp (fun h => h.1), ?_⟩
  intro a ha b hb
  exact le_of_lt (lt_of_lt_of_le (yFront_mem ha).2 (oFront_mem hb).2)

theorem front_filter_younger (p : Runner) (ps : List Runner) :
    (compute_pareto_front (p :: ps)).filter
      (fun x => decide (x.age < (firstMinKey Runner.time_seconds p ps).age)) =
    yFront (firstMinKey Runner.time_seconds p ps).age (p :: ps) := by
  rw [front_cons, List.filter_append]
  have h1 : (yFront (firstMinKey Runner.time_seconds p ps).age (p :: ps)).filter
      (fun x => decide (x.age < (firstMinKey Runner.time_seconds p ps).age)) =
      yFront (firstMinKey Runner.time_seconds p ps).age (p :: ps) :=
    List.filter_eq_self.mpr (fun a ha => decide_eq_true (yFront_mem ha).2)
  have h2 : (oFront (firstMinKey Runner.time_seconds p ps).age (p :: ps)).filter
      (fun x => decide (x.age < (firstMinKey Runner.time_seconds p ps).age)) = [] := by
    rw [List.filter_eq_nil_iff]
    intro a ha
    simp [Nat.not_lt.mpr (oFront_mem ha).2]
  rw [h1, h2, List.append_nil]

theorem front_filter_older (p : Runner) (ps : List Runner) :
    (compute_pareto_front (p :: ps)).filter
      (fun x => decide ((firstMinKey Runner.time_seconds p ps).age ≤ x.age)) =
    oFront (firstMinKey Runner.time_seconds p ps).age (p :: ps) := by
  rw [front_cons, List.filter_append]
  have h1 : (yFront (firstMinKey Runner.time_seconds p ps).age (p :: ps)).filter
      (fun x => decide ((firstMinKey Runner.time_seconds p ps).age ≤ x.age)) = [] := by
    rw [List.filter_eq_nil_iff]
    intro a ha
    simp [Nat.not_le.mpr (yFront_mem ha).2]
  have h2 : (oFront (firstMinKey Runner.time_seconds p ps).age (p :: ps)).filter
      (fun x => decide ((firstMinKey Runner.time_seconds p ps).age ≤ x.age)) =
      oFront (firstMinKey Runner.time_seconds p ps).age (p :: ps) :=
    List.filter_eq_self.mpr (fun a ha => decide_eq_true (oFront_mem ha).2)
  rw [h1, h2, List.nil_append]

/-- C8, counterexample: on the pool `[(30,100),(20,100)]` the front is
`[(20,100),(30,100)]`, but running the engine again on that front gives
`[(30,100)]` — the record `(20,100)` is lost, so the two applications
do not even yield the same set of records. -/
theorem C8_counterexample :
    c8b ∈ compute_pareto_front [c8a, c8b] ∧
    c8b ∉ compute_pareto_front (compute_pareto_front [c8a, c8b]) := by
  decide

/-- C8, amended: when the globally minimal time is uniquely attained,
the Pareto Engine is idempotent — applying it to its own output
reproduces that output exactly (even as a list, hence as a set). -/
theorem C8_amended_idempotent (p : Runner) (ps : List Runner)
    (hu : UniqueMinTime (p :: ps)) :
    compute_pareto_front (compute_pareto_front (p :: ps)) =
      compute_pareto_front (p :: ps) := by
  have hne := oFront_peak_ne_nil p ps
  have hFne : compute_pareto_front (p :: ps) ≠ [] := by
    rw [front_cons]
    intro h
    exact hne (List.append_eq_nil.mp h).2
  have hsorted := front_pairwise_ageLE p ps
  have hyfilter := front_filter_younger p ps
  have hofilter := front_filter_older p ps
  have hfast_mem := (C1_amended_front_min p ps).2 hu
  cases hF : compute_pareto_front (p :: ps) with
  | nil => exact absurd hF hFne
  | cons f fs =>
    rw [hF] at hsorted hyfilter hofilter hfast_mem
    -- step 2 on the front chooses the same peak record
    have hfast' : firstMinKey Runner.time_seconds f fs = firstMinKey Runner.time_seconds p ps := by
      have hmem' : firstMinKey Runner.time_seconds f fs ∈ f :: fs :=
        firstMinKey_mem Runner.time_seconds fs f
      have hpool' : firstMinKey Runner.time_seconds f fs ∈ p :: ps := by
        apply front_subset_pool
        rw [hF]; exact hmem'
      have hle1 : (firstMinKey Runner.time_seconds f fs).time_seconds ≤
          (firstMinKey Runner.time_seconds p ps).time_seconds :=
        firstMinKey_le Runner.time_seconds fs f _ hfast_mem
      have hle2 : (firstMinKey Runner.time_seconds p ps).time_seconds ≤
          (firstMinKey Runner.time_seconds f fs).time_seconds :=
        firstMinKey_le Runner.time_seconds ps p _ hpool'
      have heq := le_antisymm hle1 hle2
      refine hu _ hpool' _ (firstMinKey_mem Runner.time_seconds ps p) ?_ heq
      intro q hq
      rw [heq]
      exact firstMinKey_le Runner.time_seconds ps p q hq
    rw [front_cons f fs, hfast']
    have hsort_eq : sortByAge (f :: fs) = f :: fs := sortByAge_eq_self hsorted
    have hyF_decr : (yFront (firstMinKey Runner.time_seconds p ps).age (p :: ps)).Pairwise
        fun u v => v.time_seconds < u.time_seconds :=
      (yFront_pairwise _ _).imp (fun h => h.2)
    have hoFrev_decr : ((oFront (firstMinKey Runner.time_seconds p ps).age (p :: ps)).reverse).Pairwise
        fun u v => v.time_seconds < u.time_seconds := by
      rw [List.pairwise_reverse]
      exact (oFront_pairwise _ _).imp (fun h => h.2)
    rw [yFront, oFront, hsort_eq, hyfilter, hofilter]
    rw [paretoScan_eq_self _ none hyF_decr (by simp),
      paretoScan_eq_self _ none hoFrev_decr (by simp),
      List.reverse_reverse, ← front_cons, hF]

/-- C8 witness: on the witness pool (unique minimum) the engine applied
twice equals the engine applied once. -/
theorem C8_witness :
    compute_pareto_front (compute_pareto_front [w1, w2, w3]) =
      compute_pareto_front [w1, w2, w3] :=
  C8_amended_idempotent w1 [w2, w3] (by decide)

/-- C6: on a non-empty pool, with `fastest` the pool's first
minimum-time record (peak), the blocking count is: for ages below the
peak, the number of pool members at most as old and strictly faster;
for ages above the peak, the number of pool members at least as old and
strictly faster; at the peak age, zero when the record's time equals
the pool minimum, else the number of same-age strictly faster pool
members. -/
theorem C6_blocking_count (r : Runner) (pool : List Runner) (fastest : Runner)
    (hf : IsFirstMinTime pool fastest) :
    count_blocking_runners r pool =
      some (if r.age < fastest.age then
              pool.countP fun o =>
                decide (o.age ≤ r.age) && decide (o.time_seconds < r.time_seconds)
            else if fastest.age < r.age then
              pool.countP fun o =>
                decide (r.age ≤ o.age) && decide (o.time_seconds < r.time_seconds)
            else if r.time_seconds = fastest.time_seconds then 0
            else pool.countP fun o =>
              decide (o.age = r.age) && decide (o.time_seconds < r.time_seconds)) := by
  cases pool with
  | nil =>
    obtain ⟨l₁, l₂, hdec, -, -⟩ := hf
    exact absurd hdec.symm (List.append_ne_nil_of_right_ne_nil l₁ (by simp))
  | cons p ps =>
    have hfst : fastest = firstMinKey Runner.time_seconds p ps :=
      isFirstMinTime_unique hf (firstMinKey_isFirstMinTime ps p)
    rw [hfst]
    by_cases h1 : r.age < (firstMinKey Runner.time_seconds p ps).age
    · simp [count_blocking_runners, h1]
    · by_cases h2 : (firstMinKey Runner.time_seconds p ps).age < r.age
      · simp [count_blocking_runners, h1, h2]
      · by_cases h3 : r.time_seconds = (firstMinKey Runner.time_seconds p ps).time_seconds
        · simp [count_blocking_runners, h1, h2, h3]
        · simp [count_blocking_runners, h1, h2, h3]

/-- C6 witness: the spec's worked example — evaluating `(25,1250)`
against the pool `[(20,1300),(25,1250),(30,1200)]` yields 0 blocking
runners. -/
theorem C6_witness : count_blocking_runners c6b [c6a, c6b, c6c] = some 0 := by
  have h := C6_blocking_count c6b [c6a, c6b, c6c] c6c
    ⟨[c6a, c6b], [], rfl, by decide, by decide⟩
  rw [h]
  decide

theorem bestAt_cons (a : Nat) (cur : Option Runner) (r : Runner) (rs : List Runner) :
    bestAt a cur (r :: rs) =
      bestAt a
        (if r.age = a then
          (match cur with
           | none => some r
           | some c => if r.time_seconds < c.time_seconds then some r else some c)
         else cur) rs := by
  cases cur with
  | none =>
    by_cases h : r.age = a <;> simp [bestAt, h]
  | some c =>
    by_cases h : r.age = a
    · by_cases h2 : r.time_seconds < c.time_seconds <;> simp [bestAt, h, h2]
    · simp [bestAt, h]

theorem lookupAge_append_single (a k : Nat) (v : Runner) :
    ∀ m : List (Nat × Runner),
      lookupAge a (m ++ [(k, v)]) =
        match lookupAge a m with
        | some w => some w
        | none => if k = a then some v else none := by
  intro m
  induction m with
  | nil => rfl
  | cons e m ih =>
    obtain ⟨k', v'⟩ := e
    by_cases h : k' = a
    · simp [lookupAge, h]
    · simp only [List.cons_append, lookupAge, if_neg h]
      exact ih

theorem lookupAge_setAgeEntry (a k : Nat) (r : Runner) :
    ∀ m : List (Nat × Runner),
      lookupAge a (setAgeEntry k r m) =
        if k = a then (lookupAge a m).map (fun _ => r) else lookupAge a m := by
  intro m
  induction m with
  | nil => by_cases h : k = a <;> simp [setAgeEntry, lookupAge, h]
  | cons e m ih =>
    obtain ⟨k', v'⟩ := e
    by_cases h1 : k' = k
    · subst h1
      by_cases h2 : k' = a
      · subst h2; simp [setAgeEntry, lookupAge]
      · simp [setAgeEntry, lookupAge, h2]
    · by_cases h2 : k' = a
      · subst h2
        have hka : ¬ k = k' := fun h => h1 h.symm
        simp [setAgeEntry, lookupAge, h1, hka]
      · simp only [setAgeEntry, if_neg h1, lookupAge, if_neg h2]
        exact ih

theorem updateAgeGroups_of_none {m : List (Nat × Runner)} {r : Runner}
    (hm : lookupAge r.age m = none) : updateAgeGroups m r = m ++ [(r.age, r)] := by
  unfold updateAgeGroups
  rw [hm]

theorem updateAgeGroups_of_some {m : List (Nat × Runner)} {r c : Runner}
    (hm : lookupAge r.age m = some c) :
    updateAgeGroups m r =
      if r.time_seconds < c.time_seconds then setAgeEntry r.age r m else m := by
  unfold updateAgeGroups
  rw [hm]

theorem lookupAge_update (a : Nat) (m : List (Nat × Runner)) (r : Runner) :
    lookupAge a (updateAgeGroups m r) =
      if r.age = a then
        (match lookupAge a m with
         | none => some r
         | some c => if r.time_seconds < c.time_seconds then some r else some c)
      else lookupAge a m := by
  cases hm : lookupAge r.age m with
  | none =>
    rw [updateAgeGroups_of_none hm, lookupAge_append_single]
    by_cases h : r.age = a
    · subst h
      simp [hm]
    · cases ha : lookupAge a m with
      | none => simp [if_neg h]
      | some w => simp [if_neg h]
  | some c =>
    rw [updateAgeGroups_of_some hm]
    by_cases h2 : r.time_seconds < c.time_seconds
    · rw [if_pos h2, lookupAge_setAgeEntry]
      by_cases h : r.age = a
      · subst h
        rw [hm]
        simp [h2]
      · simp [h]
    · rw [if_neg h2]
      by_cases h : r.age = a
      · subst h
        rw [hm]
        simp [h2]
      · simp [h]

theorem fold_lookup (a : Nat) :
    ∀ (l : List Runner) (m : List (Nat × Runner)),
      lookupAge a (l.foldl updateAgeGroups m) = bestAt a (lookupAge a m) l := by
  intro l
  induction l with
  | nil =>
    intro m
    show lookupAge a m = bestAt a (lookupAge a m) []
    cases lookupAge a m <;> rfl
  | cons r rs ih =>
    intro m
    rw [List.foldl_cons, ih, bestAt_cons, lookupAge_update]

theorem bestAt_some_isSome (a : Nat) :
    ∀ (l : List Runner) (c : Runner), ∃ r, bestAt a (some c) l = some r := by
  intro l
  induction l with
  | nil => intro c; exact ⟨c, rfl⟩
  | cons x xs ih =>
    intro c
    by_cases h : x.age = a
    · by_cases h2 : x.time_seconds < c.time_seconds
      · simpa [bestAt, h, h2] using ih x
      · simpa [bestAt, h, h2] using ih c
    · simpa [bestAt, h] using ih c

theorem bestAt_none_present (a : Nat) :
    ∀ l : List Runner, (∃ s ∈ l, s.age = a) → ∃ r, bestAt a none l = some r := by
  intro l
  induction l with
  | nil => intro h; obtain ⟨s, hs, -⟩ := h; simp at hs
  | cons x xs ih =>
    intro h
    by_cases hx : x.age = a
    · simpa [bestAt, hx] using bestAt_some_isSome a xs x
    · obtain ⟨s, hs, hsa⟩ := h
      have hsx : s ∈ xs := by
        rcases List.mem_cons.mp hs with h1 | h1
        · exact absurd (h1 ▸ hsa) hx
        · exact h1
      simpa [bestAt, hx] using ih ⟨s, hsx, hsa⟩

theorem bestAt_some_spec (a : Nat) :
    ∀ (l : List Runner) (c r : Runner), bestAt a (some c) l = some r →
      (r = c ∧ ∀ s ∈ l, s.age = a → r.time_seconds ≤ s.time_seconds) ∨
      (r ∈ l ∧ r.age = a ∧ r.time_seconds < c.time_seconds ∧
        (∀ s ∈ l, s.age = a → r.time_seconds ≤ s.time_seconds) ∧
        ∃ l₁ l₂, l = l₁ ++ r :: l₂ ∧
          ∀ s ∈ l₁, s.age = a → r.time_seconds < s.time_seconds) := by
  intro l
  induction l with
  | nil =>
    intro c r h
    left
    simp only [bestAt] at h
    exact ⟨(Option.some.inj h).symm, by simp⟩
  | cons x xs ih =>
    intro c r h
    by_cases hx : x.age = a
    · by_cases h2 : x.time_seconds < c.time_seconds
      · rw [bestAt, if_pos hx, if_pos h2] at h
        rcases ih x r h with ⟨h3, h4⟩ | ⟨h3, h4, h5, h6, l₁, l₂, h7, h8⟩
        · right
          subst h3
          refine ⟨by simp, hx, h2, ?_, [], xs, rfl, by simp⟩
          intro s hs hsa
          rcases List.mem_cons.mp hs with h5 | h5
          · rw [h5]
          · exact h4 s h5 hsa
        · right
          refine ⟨List.mem_cons_of_mem x h3, h4, lt_trans h5 h2, ?_, x :: l₁, l₂,
            by rw [List.cons_append, h7], ?_⟩
          · intro s hs hsa
            rcases List.mem_cons.mp hs with h9 | h9
            · rw [h9]; exact le_of_lt h5
            · exact h6 s h9 hsa
          · intro s hs hsa
            rcases List.mem_cons.mp hs with h9 | h9
            · rw [h9]; exact h5
            · exact h8 s h9 hsa
      · rw [bestAt, if_pos hx, if_neg h2] at h
        rcases ih c r h with ⟨h3, h4⟩ | ⟨h3, h4, h5, h6, l₁, l₂, h7, h8⟩
        · left
          refine ⟨h3, ?_⟩
          intro s hs hsa
          rcases List.mem_cons.mp hs with h5 | h5
          · rw [h5, h3]; exact not_lt.mp h2
          · exact h4 s h5 hsa
        · right
          refine ⟨List.mem_cons_of_mem x h3, h4, h5, ?_, x :: l₁, l₂,
            by rw [List.cons_append, h7], ?_⟩
          · intro s hs hsa
            rcases List.mem_cons.mp hs with h9 | h9
            · rw [h9]; exact le_of_lt (lt_of_lt_of_le h5 (not_lt.mp h2))
            · exact h6 s h9 hsa
          · intro s hs hsa
            rcases List.mem_cons.mp hs with h9 | h9
            · rw [h9]; exact lt_of_lt_of_le h5 (not_lt.mp h2)
            · exact h8 s h9 hsa
    · rw [bestAt, if_neg hx] at h
      rcases ih c r h with ⟨h3, h4⟩ | ⟨h3, h4, h5, h6, l₁, l₂, h7, h8⟩
      · left
        refine ⟨h3, ?_⟩
        intro s hs hsa
        rcases List.mem_cons.mp hs with h5 | h5
        · exact absurd (h5 ▸ hsa) hx
        · exact h4 s h5 hsa
      · right
        refine ⟨List.mem_cons_of_mem x h3, h4, h5, ?_, x :: l₁, l₂,
          by rw [List.cons_append, h7], ?_⟩
        · intro s hs hsa
          rcases List.mem_cons.mp hs with h9 | h9
          · exact absurd (h9 ▸ hsa) hx
          · exact h6 s h9 hsa
        · intro s hs hsa
          rcases List.mem_cons.mp hs with h9 | h9
          · exact absurd (h9 ▸ hsa) hx
          · exact h8 s h9 hsa

theorem bestAt_none_spec (a : Nat) :
    ∀ (l : List Runner) (r : Runner), bestAt a none l = some r →
      r ∈ l ∧ r.age = a ∧
      (∀ s ∈ l, s.age = a → r.time_seconds ≤ s.time_seconds) ∧
      ∃ l₁ l₂, l = l₁ ++ r :: l₂ ∧
        ∀ s ∈ l₁, s.age = a → r.time_seconds < s.time_seconds := by
  intro l
  induction l with
  | nil => intro r h; simp [bestAt] at h
  | cons x xs ih =>
    intro r h
    by_cases hx : x.age = a
    · rw [bestAt, if_pos hx] at h
      rcases bestAt_some_spec a xs x r h with ⟨h3, h4⟩ | ⟨h3, h4, h5, h6, l₁, l₂, h7, h8⟩
      · subst h3
        refine ⟨by simp, hx, ?_, [], xs, rfl, by simp⟩
        intro s hs hsa
        rcases List.mem_cons.mp hs with h5 | h5
        · rw [h5]
        · exact h4 s h5 hsa
      · refine ⟨List.mem_cons_of_mem x h3, h4, ?_, x :: l₁, l₂,
          by rw [List.cons_append, h7], ?_⟩
        · intro s hs hsa
          rcases List.mem_cons.mp hs with h9 | h9
          · rw [h9]; exact le_of_lt h5
          · exact h6 s h9 hsa
        · intro s hs hsa
          rcases List.mem_cons.mp hs with h9 | h9
          · rw [h9]; exact h5
          · exact h8 s h9 hsa
    · rw [bestAt, if_neg hx] at h
      obtain ⟨h3, h4, h5, l₁, l₂, h6, h7⟩ := ih r h
      refine ⟨List.mem_cons_of_mem x h3, h4, ?_, x :: l₁, l₂,
        by rw [List.cons_append, h6], ?_⟩
      · intro s hs hsa
        rcases List.mem_cons.mp hs with h9 | h9
        · exact absurd (h9 ▸ hsa) hx
        · exact h5 s h9 hsa
      · intro s hs hsa
        rcases List.mem_cons.mp hs with h9 | h9
        · exact absurd (h9 ▸ hsa) hx
        · exact h7 s h9 hsa

theorem setAgeEntry_map_fst (k : Nat) (r : Runner) :
    ∀ m : List (Nat × Runner), (setAgeEntry k r m).map Prod.fst = m.map Prod.fst := by
  intro m
  induction m with
  | nil => rfl
  | cons e m ih =>
    obtain ⟨k', v'⟩ := e
    by_cases h : k' = k
    · simp [setAgeEntry, h]
    · simp [setAgeEntry, h, ih]

theorem setAgeEntry_ages {k : Nat} {r : Runner} (hk : r.age = k) :
    ∀ m : List (Nat × Runner), (∀ e ∈ m, e.2.age = e.1) →
      ∀ e ∈ setAgeEntry k r m, e.2.age = e.1 := by
  intro m
  induction m with
  | nil => intro _ e he; simp [setAgeEntry] at he
  | cons f m ih =>
    obtain ⟨k', v'⟩ := f
    intro hm e he
    by_cases h : k' = k
    · rw [setAgeEntry, if_pos h] at he
      rcases List.mem_cons.mp he with h1 | h1
      · rw [h1]; rw [← h] at hk; exact hk
      · exact hm e (List.mem_cons_of_mem _ h1)
    · rw [setAgeEntry, if_neg h] at he
      rcases List.mem_cons.mp he with h1 | h1
      · rw [h1]; exact hm (k', v') (by simp)
      · exact ih (fun e he => hm e (List.mem_cons_of_mem _ he)) e h1

theorem lookupAge_eq_none_iff (k : Nat) :
    ∀ m : List (Nat × Runner), lookupAge k m = none ↔ ∀ e ∈ m, e.1 ≠ k := by
  intro m
  induction m with
  | nil => simp [lookupAge]
  | cons e m ih =>
    obtain ⟨k', v'⟩ := e
    by_cases h : k' = k
    · simp [lookupAge, h]
    · simp only [lookupAge, if_neg h, ih, List.mem_cons]
      constructor
      · intro h1 e he
        rcases he with h2 | h2
        · rw [h2]; exact h
        · exact h1 e h2
      · intro h1 e he
        exact h1 e (Or.inr he)

theorem mem_of_lookupAge {a : Nat} {r : Runner} :
    ∀ m : List (Nat × Runner), lookupAge a m = some r → (a, r) ∈ m := by
  intro m
  induction m with
  | nil => intro h; simp [lookupAge] at h
  | cons e m ih =>
    obtain ⟨k', v'⟩ := e
    intro h
    by_cases h1 : k' = a
    · rw [lookupAge, if_pos h1] at h
      subst h1
      rw [Option.some.inj h]
      simp
    · rw [lookupAge, if_neg h1] at h
      exact List.mem_cons_of_mem _ (ih h)

theorem lookupAge_of_mem_nodup {k : Nat} {v : Runner} :
    ∀ m : List (Nat × Runner), (m.map Prod.fst).Nodup → (k, v) ∈ m →
      lookupAge k m = some v := by
  intro m
  induction m with
  | nil => intro _ h; simp at h
  | cons e m ih =>
    obtain ⟨k', v'⟩ := e
    intro hnd hmem
    have hnd' := hnd
    rw [List.map_cons, List.nodup_cons] at hnd'
    rcases List.mem_cons.mp hmem with h1 | h1
    · injection h1 with h2 h3
      rw [lookupAge, if_pos h2.symm]
      rw [h3]
    · by_cases h2 : k' = k
      · exfalso
        apply hnd'.1
        rw [h2]
        exact List.mem_map.mpr ⟨(k, v), h1, rfl⟩
      · rw [lookupAge, if_neg h2]
        exact ih hnd'.2 h1

theorem fold_inv :
    ∀ (l : List Runner) (m : List (Nat × Runner)),
      (m.map Prod.fst).Nodup → (∀ e ∈ m, e.2.age = e.1) →
      ((l.foldl updateAgeGroups m).map Prod.fst).Nodup ∧
      (∀ e ∈ l.foldl updateAgeGroups m, e.2.age = e.1) := by
  intro l
  induction l with
  | nil => intro m h1 h2; exact ⟨h1, h2⟩
  | cons r rs ih =>
    intro m h1 h2
    rw [List.foldl_cons]
    apply ih
    · cases hm : lookupAge r.age m with
      | none =>
        rw [updateAgeGroups_of_none hm, List.map_append]
        rw [List.nodup_append]
        refine ⟨h1, by simp, ?_⟩
        intro x hx
        simp only [List.map_cons, List.map_nil, List.mem_singleton]
        intro hxk
        obtain ⟨e, heM, hefst⟩ := List.mem_map.mp hx
        have := (lookupAge_eq_none_iff r.age m).mp hm e heM
        rw [hefst] at this
        exact this hxk
      | some c =>
        rw [updateAgeGroups_of_some hm]
        by_cases h3 : r.time_seconds < c.time_seconds
        · rw [if_pos h3, setAgeEntry_map_fst]; exact h1
        · rw [if_neg h3]; exact h1
    · cases hm : lookupAge r.age m with
      | none =>
        rw [updateAgeGroups_of_none hm]
        intro e he
        rcases List.mem_append.mp he with h3 | h3
        · exact h2 e h3
        · rw [List.mem_singleton.mp h3]
      | some c =>
        rw [updateAgeGroups_of_some hm]
        by_cases h3 : r.time_seconds < c.time_seconds
        · rw [if_pos h3]
          exact setAgeEntry_ages rfl m h2
        · rw [if_neg h3]; exact h2

theorem fold_lookup_nil (a : Nat) (l : List Runner) :
    lookupAge a (l.foldl updateAgeGroups []) = bestAt a none l :=
  fold_lookup a l []

/-- C7: the Age Reducer keeps, for each age present in the pool,
exactly one record — a pool record of that age whose time is minimal at
that age, namely the first-encountered record attaining that minimum
(every strictly earlier same-age record is strictly slower); the empty
pool yields the empty result. -/
theorem C7_age_reducer (pool : List Runner) :
    (pool = [] → get_fastest_at_each_age pool = []) ∧
    (get_fastest_at_each_age pool).Pairwise (fun u v => u.age ≠ v.age) ∧
    (∀ r ∈ get_fastest_at_each_age pool,
      r ∈ pool ∧
      (∀ s ∈ pool, s.age = r.age → r.time_seconds ≤ s.time_seconds) ∧
      ∃ l₁ l₂, pool = l₁ ++ r :: l₂ ∧
        ∀ s ∈ l₁, s.age = r.age → r.time_seconds < s.time_seconds) ∧
    (∀ a : Nat,
      (∃ s ∈ pool, s.age = a) ↔ ∃ r ∈ get_fastest_at_each_age pool, r.age = a) := by
  cases pool with
  | nil =>
    refine ⟨fun _ => rfl, by simp [get_fastest_at_each_age], ?_, ?_⟩
    · intro r hr; simp [get_fastest_at_each_age] at hr
    · intro a
      constructor
      · rintro ⟨s, hs, -⟩; simp at hs
      · rintro ⟨r, hr, -⟩; simp [get_fastest_at_each_age] at hr
  | cons p ps =>
    have hout : get_fastest_at_each_age (p :: ps) =
        ((p :: ps).foldl updateAgeGroups []).map Prod.snd := rfl
    have hinv := fold_inv (p :: ps) [] (by simp) (by simp)
    have hmem_to_best : ∀ r, r ∈ get_fastest_at_each_age (p :: ps) →
        bestAt r.age none (p :: ps) = some r := by
      intro r hr
      rw [hout] at hr
      obtain ⟨e, heM, hesnd⟩ := List.mem_map.mp hr
      obtain ⟨k, v⟩ := e
      have hv : v = r := hesnd
      subst hv
      have hk : v.age = k := hinv.2 (k, v) heM
      have hlook : lookupAge k ((p :: ps).foldl updateAgeGroups []) = some v :=
        lookupAge_of_mem_nodup _ hinv.1 heM
      rw [← fold_lookup_nil, hk]
      exact hlook
    refine ⟨fun h => absurd h (List.cons_ne_nil p ps), ?_, ?_, ?_⟩
    · -- pairwise distinct ages in the output
      rw [hout, List.pairwise_map]
      have hfst : ((p :: ps).foldl updateAgeGroups []).Pairwise
          (fun e f : Nat × Runner => e.1 ≠ f.1) := by
        have h2 : (((p :: ps).foldl updateAgeGroups []).map Prod.fst).Pairwise
            (fun a b : Nat => a ≠ b) := hinv.1
        rw [List.pairwise_map] at h2
        exact h2
      refine hfst.imp_of_mem ?_
      intro e f he hf hne
      rw [hinv.2 e he, hinv.2 f hf]
      exact hne
    · intro r hr
      obtain ⟨h1, h2, h3, h4⟩ := bestAt_none_spec r.age (p :: ps) r (hmem_to_best r hr)
      exact ⟨h1, h3, h4⟩
    · intro a
      constructor
      · intro ⟨s, hs, hsa⟩
        obtain ⟨r, hr⟩ := bestAt_none_present a (p :: ps) ⟨s, hs, hsa⟩
        obtain ⟨hrmem, hra, -, -⟩ := bestAt_none_spec a (p :: ps) r hr
        refine ⟨r, ?_, hra⟩
        rw [hout]
        have hlook : lookupAge a ((p :: ps).foldl updateAgeGroups []) = some r := by
          rw [fold_lookup_nil]; exact hr
        exact List.mem_map.mpr ⟨(a, r), mem_of_lookupAge _ hlook, rfl⟩
      · intro ⟨r, hr, hra⟩
        obtain ⟨h1, -, -, -⟩ := bestAt_none_spec r.age (p :: ps) r (hmem_to_best r hr)
        exact ⟨r, h1, hra⟩

/-- C7 witness: age 20 is present in the pool, so the reduced output
contains an entry of age 20 (via the presence equivalence). -/
theorem C7_witness : ∃ r ∈ get_fastest_at_each_age [c7a, c7b], r.age = 20 :=
  ((C7_age_reducer [c7a, c7b]).2.2.2 20).mp ⟨c7a, by simp, by decide⟩

theorem lookupName_append_single (n k : String) (v : List String) :
    ∀ m : List (String × List String),
      lookupName n (m ++ [(k, v)]) =
        match lookupName n m with
        | some w => some w
        | none => if k = n then some v else none := by
  intro m
  induction m with
  | nil => rfl
  | cons e m ih =>
    obtain ⟨k', v'⟩ := e
    by_cases h : k' = n
    · simp [lookupName, h]
    · simp only [List.cons_append, lookupName, if_neg h]
      exact ih

theorem lookupName_setNameEntry (n k : String) (v : List String) :
    ∀ m : List (String × List String),
      lookupName n (setNameEntry k v m) =
        if k = n then (lookupName n m).map (fun _ => v) else lookupName n m := by
  intro m
  induction m with
  | nil => by_cases h : k = n <;> simp [setNameEntry, lookupName, h]
  | cons e m ih =>
    obtain ⟨k', v'⟩ := e
    by_cases h1 : k' = k
    · subst h1
      by_cases h2 : k' = n
      · subst h2; simp [setNameEntry, lookupName]
      · simp [setNameEntry, lookupName, h2]
    · by_cases h2 : k' = n
      · subst h2
        have hkn : ¬ k = k' := fun h => h1 h.symm
        simp [setNameEntry, lookupName, h1, hkn]
      · simp only [setNameEntry, if_neg h1, lookupName, if_neg h2]
        exact ih

theorem addYear_lookup (n : String) (m : List (String × List String)) (r : Runner) :
    (lookupName n (addYear m r)).getD [] =
      (lookupName n m).getD [] ++ (if r.name = n then [r.year] else []) := by
  unfold addYear
  cases hm : lookupName r.name m with
  | none =>
    rw [lookupName_append_single]
    by_cases h : r.name = n
    · subst h
      rw [hm]
      simp
    · cases ha : lookupName n m with
      | none => simp [if_neg h]
      | some w => simp [if_neg h]
  | some ys =>
    rw [lookupName_setNameEntry]
    by_cases h : r.name = n
    · subst h
      rw [hm]
      simp
    · simp [h]

theorem lookupName_fold (n : String) :
    ∀ (l : List Runner) (m : List (String × List String)),
      (lookupName n (l.foldl addYear m)).getD [] =
        (lookupName n m).getD [] ++
          ((l.filter fun r => decide (r.name = n)).map Runner.year) := by
  intro l
  induction l with
  | nil => intro m; simp
  | cons r rs ih =>
    intro m
    rw [List.foldl_cons, ih, addYear_lookup, List.filter_cons]
    by_cases h : r.name = n
    · simp [h, List.append_assoc]
    · simp [h]

/-- C9: in the all-time view the display name of a record is its raw
name with `" (year)"` appended exactly when the records sharing that
raw name span more than one distinct year, and the raw name unchanged
otherwise. -/
theorem C9_display_name (results : List Runner) (r : Runner) :
    display_name results r =
      if 1 <
          (((results.filter fun s => decide (s.name = r.name)).map Runner.year).dedup).length
      then r.name ++ " (" ++ r.year ++ ")"
      else r.name := by
  unfold display_name name_year_counts
  have h := lookupName_fold r.name results []
  simp only [lookupName, Option.getD_none, List.nil_append] at h
  rw [h]

theorem findExact_eq_none_iff (a : Nat) :
    ∀ l : List Runner, findExact a l = none ↔ ∀ f ∈ l, f.age ≠ a := by
  intro l
  induction l with
  | nil => simp [findExact]
  | cons f fs ih =>
    by_cases h : f.age = a
    · simp [findExact, h]
    · simp only [findExact, if_neg h, ih, List.mem_cons]
      constructor
      · intro h1 g hg
        rcases hg with h2 | h2
        · rw [h2]; exact h
        · exact h1 g h2
      · intro h1 g hg
        exact h1 g (Or.inr hg)

theorem findExact_spec (a : Nat) :
    ∀ (l : List Runner) (t : ℚ), findExact a l = some t →
      ∃ f ∈ l, f.age = a ∧ f.time_seconds = t := by
  intro l
  induction l with
  | nil => intro t h; simp [findExact] at h
  | cons f fs ih =>
    intro t h
    by_cases hf : f.age = a
    · rw [findExact, if_pos hf] at h
      exact ⟨f, by simp, hf, Option.some.inj h⟩
    · rw [findExact, if_neg hf] at h
      obtain ⟨g, hg, h1, h2⟩ := ih t h
      exact ⟨g, List.mem_cons_of_mem f hg, h1, h2⟩

theorem findExact_isSome (a : Nat) :
    ∀ l : List Runner, (∃ f ∈ l, f.age = a) → ∃ t, findExact a l = some t := by
  intro l hex
  cases h : findExact a l with
  | none =>
    obtain ⟨f, hf, hfa⟩ := hex
    exact absurd hfa ((findExact_eq_none_iff a l).mp h f hf)
  | some t => exact ⟨t, rfl⟩

theorem gpt_exact {age : Nat} {f : Runner} {fs : List Runner} {t : ℚ}
    (h : findExact age (f :: fs) = some t) :
    get_pareto_time_at_age age (f :: fs) = some t := by
  simp only [get_pareto_time_at_age]
  rw [h]

theorem gpt_no_exact {age : Nat} {f : Runner} {fs : List Runner}
    (h : findExact age (f :: fs) = none) :
    get_pareto_time_at_age age (f :: fs) =
      (match (f :: fs).filter fun q => decide (q.age < age),
             (f :: fs).filter fun q => decide (age < q.age) with
       | [], [] => none
       | [], _ :: _ => some (firstMinKey (fun r => r.age) f fs).time_seconds
       | _ :: _, [] => some (firstMaxKey (fun r => r.age) f fs).time_seconds
       | yh :: yt, oh :: ot =>
         some ((firstMaxKey (fun r => r.age) yh yt).time_seconds +
           ((firstMinKey (fun r => r.age) oh ot).time_seconds -
               (firstMaxKey (fun r => r.age) yh yt).time_seconds) *
             ((age : ℚ) - ((firstMaxKey (fun r => r.age) yh yt).age : ℚ)) /
             (((firstMinKey (fun r => r.age) oh ot).age : ℚ) -
               ((firstMaxKey (fun r => r.age) yh yt).age : ℚ)))) := by
  simp only [get_pareto_time_at_age]
  rw [h]

/-- C5: `get_pareto_time_at_age` returns `None` on the empty front; the
stored time of a front entry at the queried age when one exists; the
time of a youngest front entry when the query is below every front age;
the time of an oldest front entry when it is above every front age; and
otherwise the linear interpolation between the nearest younger and the
nearest older front entries. -/
theorem C5_interpolation (age : Nat) (front : List Runner) :
    (front = [] → get_pareto_time_at_age age front = none) ∧
    ((∃ f ∈ front, f.age = age) →
      ∃ f ∈ front, f.age = age ∧
        get_pareto_time_at_age age front = some f.time_seconds) ∧
    (front ≠ [] → (∀ f ∈ front, age < f.age) →
      ∃ f ∈ front, (∀ g ∈ front, f.age ≤ g.age) ∧
        get_pareto_time_at_age age front = some f.time_seconds) ∧
    (front ≠ [] → (∀ f ∈ front, f.age < age) →
      ∃ f ∈ front, (∀ g ∈ front, g.age ≤ f.age) ∧
        get_pareto_time_at_age age front = some f.time_seconds) ∧
    ((∃ f ∈ front, f.age < age) → (∃ f ∈ front, age < f.age) →
      (∀ f ∈ front, f.age ≠ age) →
      ∃ fy ∈ front, ∃ fo ∈ front, fy.age < age ∧ age < fo.age ∧
        (∀ g ∈ front, g.age < age → g.age ≤ fy.age) ∧
        (∀ g ∈ front, age < g.age → fo.age ≤ g.age) ∧
        get_pareto_time_at_age age front =
          some (fy.time_seconds + (fo.time_seconds - fy.time_seconds) *
            ((age : ℚ) - (fy.age : ℚ)) / ((fo.age : ℚ) - (fy.age : ℚ)))) := by
  refine ⟨?_, ?_, ?_, ?_, ?_⟩
  · intro h; rw [h]; rfl
  · intro hex
    cases front with
    | nil => obtain ⟨f, hf, -⟩ := hex; simp at hf
    | cons f fs =>
      obtain ⟨t, ht⟩ := findExact_isSome age (f :: fs) hex
      obtain ⟨g, hg, hga, hgt⟩ := findExact_spec age (f :: fs) t ht
      exact ⟨g, hg, hga, by rw [gpt_exact ht, hgt]⟩
  · intro hne hall
    cases front with
    | nil => exact absurd rfl hne
    | cons f fs =>
      have hno : findExact age (f :: fs) = none :=
        (findExact_eq_none_iff age (f :: fs)).mpr
          (fun g hg => (ne_of_lt (hall g hg)).symm)
      have hy : ((f :: fs).filter fun q => decide (q.age < age)) = [] := by
        rw [List.filter_eq_nil_iff]
        intro g hg
        simp [Nat.not_lt.mpr (le_of_lt (hall g hg))]
      have ho : ((f :: fs).filter fun q => decide (age < q.age)) = f :: fs :=
        List.filter_eq_self.mpr (fun g hg => decide_eq_true (hall g hg))
      refine ⟨firstMinKey (fun r => r.age) f fs,
        firstMinKey_mem (fun r => r.age) fs f,
        fun g hg => firstMinKey_le (fun r => r.age) fs f g hg, ?_⟩
      rw [gpt_no_exact hno, hy, ho]
  · intro hne hall
    cases front with
    | nil => exact absurd rfl hne
    | cons f fs =>
      have hno : findExact age (f :: fs) = none :=
        (findExact_eq_none_iff age (f :: fs)).mpr
          (fun g hg => ne_of_lt (hall g hg))
      have hy : ((f :: fs).filter fun q => decide (q.age < age)) = f :: fs :=
        List.filter_eq_self.mpr (fun g hg => decide_eq_true (hall g hg))
      have ho : ((f :: fs).filter fun q => decide (age < q.age)) = [] := by
        rw [List.filter_eq_nil_iff]
        intro g hg
        simp [Nat.not_lt.mpr (le_of_lt (hall g hg))]
      refine ⟨firstMaxKey (fun r => r.age) f fs,
        firstMaxKey_mem (fun r => r.age) fs f,
        fun g hg => firstMaxKey_ge (fun r => r.age) fs f g hg, ?_⟩
      rw [gpt_no_exact hno, hy, ho]
  · intro hexy hexo hnone
    cases front with
    | nil => obtain ⟨f, hf, -⟩ := hexy; simp at hf
    | cons f fs =>
      have hno : findExact age (f :: fs) = none :=
        (findExact_eq_none_iff age (f :: fs)).mpr hnone
      obtain ⟨fy0, hfy0, hfy0a⟩ := hexy
      obtain ⟨fo0, hfo0, hfo0a⟩ := hexo
      have hymem : fy0 ∈ (f :: fs).filter fun q => decide (q.age < age) :=
        List.mem_filter.mpr ⟨hfy0, decide_eq_true hfy0a⟩
      have homem : fo0 ∈ (f :: fs).filter fun q => decide (age < q.age) :=
        List.mem_filter.mpr ⟨hfo0, decide_eq_true hfo0a⟩
      obtain ⟨yh, yt, hyeq⟩ :=
        List.exists_cons_of_ne_nil (List.ne_nil_of_mem hymem)
      obtain ⟨oh, ot, hoeq⟩ :=
        List.exists_cons_of_ne_nil (List.ne_nil_of_mem homem)
      have hcy_mem : firstMaxKey (fun r => r.age) yh yt ∈
          (f :: fs).filter fun q => decide (q.age < age) := by
        rw [hyeq]; exact firstMaxKey_mem (fun r => r.age) yt yh
      have hco_mem : firstMinKey (fun r => r.age) oh ot ∈
          (f :: fs).filter fun q => decide (age < q.age) := by
        rw [hoeq]; exact firstMinKey_mem (fun r => r.age) ot oh
      obtain ⟨hcy_front, hcy_age⟩ := List.mem_filter.mp hcy_mem
      obtain ⟨hco_front, hco_age⟩ := List.mem_filter.mp hco_mem
      refine ⟨firstMaxKey (fun r => r.age) yh yt, hcy_front,
        firstMinKey (fun r => r.age) oh ot, hco_front,
        of_decide_eq_true hcy_age, of_decide_eq_true hco_age, ?_, ?_, ?_⟩
      · intro g hg hga
        have : g ∈ yh :: yt := by
          rw [← hyeq]
          exact List.mem_filter.mpr ⟨hg, decide_eq_true hga⟩
        exact firstMaxKey_ge (fun r => r.age) yt yh g this
      · intro g hg hga
        have : g ∈ oh :: ot := by
          rw [← hoeq]
          exact List.mem_filter.mpr ⟨hg, decide_eq_true hga⟩
        exact firstMinKey_le (fun r => r.age) ot oh g this
      · rw [gpt_no_exact hno, hyeq, hoeq]

/-- C5 witness: the spec's exact-match example — on the front
`[(20,1200),(30,1100),(40,1300)]` the queried age 30 returns the stored
time 1100. -/
theorem C5_witness : get_pareto_time_at_age 30 [c5a, c5b, c5c] = some 1100 := by
  obtain ⟨f, hf, hage,  hres⟩ :=
    (C5_interpolation 30 [c5a, c5b, c5c]).2.1 ⟨c5b, by simp, rfl⟩
  simp only [List.mem_cons, List.mem_singleton, List.not_mem_nil, or_false] at hf
  rcases hf with h | h | h
  · exact absurd (h ▸ hage) (by decide)
  · rw [hres, h]; rfl
  · exact absurd (h ▸ hage) (by decide)

theorem mem_front_of_yFront {p : Runner} {ps : List Runner} {r : Runner}
    (h : r ∈ yFront (firstMinKey Runner.time_seconds p ps).age (p :: ps)) :
    r ∈ compute_pareto_front (p :: ps) := by
  rw [front_cons]
  exact List.mem_append_left _ h

theorem mem_front_of_oFront {p : Runner} {ps : List Runner} {r : Runner}
    (h : r ∈ oFront (firstMinKey Runner.time_seconds p ps).age (p :: ps)) :
    r ∈ compute_pareto_front (p :: ps) := by
  rw [front_cons]
  exact List.mem_append_right _ h

theorem front_mem_cases {p : Runner} {ps : List Runner} {r : Runner}
    (h : r ∈ compute_pareto_front (p :: ps)) :
    r ∈ yFront (firstMinKey Runner.time_seconds p ps).age (p :: ps) ∨
    r ∈ oFront (firstMinKey Runner.time_seconds p ps).age (p :: ps) := by
  rw [front_cons] at h
  exact List.mem_append.mp h

theorem oFront_peak_cons_min (p : Runner) (ps : List Runner) {oh : Runner} {ot : List Runner}
    (hoF : oFront (firstMinKey Runner.time_seconds p ps).age (p :: ps) = oh :: ot) :
    ∀ q ∈ p :: ps, oh.time_seconds ≤ q.time_seconds := by
  have hne := oFront_peak_ne_nil p ps
  have h2 : (oFront (firstMinKey Runner.time_seconds p ps).age (p :: ps)).head? = some oh := by
    rw [hoF]; rfl
  rw [List.head?_eq_head hne] at h2
  have h3 := oFront_peak_head_min p ps hne
  rw [Option.some.inj h2] at h3
  exact h3

theorem oFront_peak_cons_eq_fastest (p : Runner) (ps : List Runner)
    (hu : UniqueMinTime (p :: ps)) {oh : Runner} {ot : List Runner}
    (hoF : oFront (firstMinKey Runner.time_seconds p ps).age (p :: ps) = oh :: ot) :
    oh = firstMinKey Runner.time_seconds p ps := by
  have hne := oFront_peak_ne_nil p ps
  have h2 : (oFront (firstMinKey Runner.time_seconds p ps).age (p :: ps)).head? = some oh := by
    rw [hoF]; rfl
  rw [List.head?_eq_head hne] at h2
  have h3 := oFront_peak_head_eq_fastest p ps hu hne
  rw [Option.some.inj h2] at h3
  exact h3

/-- A convex combination of two values bounded by `c` is bounded by `c`:
the interpolated front time at an age strictly between the two nearest
front ages never exceeds a common upper bound of their two times. -/
theorem interp_le {ay aq ao : Nat} {ty tb c : ℚ} (h1 : ay < aq) (h2 : aq < ao)
    (h3 : ty ≤ c) (h4 : tb ≤ c) :
    ty + (tb - ty) * ((aq : ℚ) - (ay : ℚ)) / ((ao : ℚ) - (ay : ℚ)) ≤ c := by
  have hay : (ay : ℚ) < (aq : ℚ) := by exact_mod_cast h1
  have hao : (aq : ℚ) < (ao : ℚ) := by exact_mod_cast h2
  have hden : (0 : ℚ) < (ao : ℚ) - (ay : ℚ) := by linarith
  have h5 : (tb - ty) * ((aq : ℚ) - (ay : ℚ)) ≤ (c - ty) * ((ao : ℚ) - (ay : ℚ)) := by
    nlinarith [mul_nonneg (sub_nonneg.mpr h4) (le_of_lt (sub_pos.mpr hay)),
      mul_nonneg (sub_nonneg.mpr h3) (le_of_lt (sub_pos.mpr hao))]
  have h6 : (tb - ty) * ((aq : ℚ) - (ay : ℚ)) / ((ao : ℚ) - (ay : ℚ)) ≤ c - ty :=
    (div_le_iff₀ hden).mpr h5
  linarith

/-- If a pool record with distinct ages and a unique global minimum is
not on the front, the nearest front entry younger than it is not slower
than it. -/
theorem front_nearest_younger_bound (p : Runner) (ps : List Runner)
    (hd : (p :: ps).Pairwise fun u v => u.age ≠ v.age)
    (hu : UniqueMinTime (p :: ps)) {x : Runner} (hx : x ∈ p :: ps)
    (hxF : x ∉ compute_pareto_front (p :: ps))
    {cy : Runner} (hcyF : cy ∈ compute_pareto_front (p :: ps)) (hcy_lt : cy.age < x.age)
    (hcy_max : ∀ g ∈ compute_pareto_front (p :: ps), g.age < x.age → g.age ≤ cy.age) :
    cy.time_seconds ≤ x.time_seconds := by
  have hne := oFront_peak_ne_nil p ps
  obtain ⟨oh, ot, hoF⟩ := List.exists_cons_of_ne_nil hne
  have hoh_min := oFront_peak_cons_min p ps hoF
  have hoh_fast := oFront_peak_cons_eq_fastest p ps hu hoF
  have hohF : oh ∈ compute_pareto_front (p :: ps) :=
    mem_front_of_oFront (by rw [hoF]; simp)
  have hpeak_age : oh.age = (firstMinKey Runner.time_seconds p ps).age := by rw [hoh_fast]
  rcases Nat.lt_trichotomy x.age (firstMinKey Runner.time_seconds p ps).age with hlt | heq | hgt
  · -- x is on the younger side; take its scan-exclusion witness
    have hxnot : x ∉ yFront (firstMinKey Runner.time_seconds p ps).age (p :: ps) :=
      fun h => hxF (mem_front_of_yFront h)
    obtain ⟨s, hs, hsage, hstime⟩ := yFront_excluded hx hlt hxnot
    have hsF : s ∈ compute_pareto_front (p :: ps) := mem_front_of_yFront hs
    have hsx : s ≠ x := fun h => hxF (h ▸ hsF)
    have hs_lt : s.age < x.age :=
      lt_of_le_of_ne hsage
        (fun h => hsx (eq_of_age_eq hd (front_subset_pool hsF) hx h))
    have hcy_yF : cy ∈ yFront (firstMinKey Runner.time_seconds p ps).age (p :: ps) := by
      rcases front_mem_cases hcyF with h | h
      · exact h
      · exact absurd (oFront_mem h).2 (not_le.mpr (lt_trans hcy_lt hlt))
    have hscy : s.age ≤ cy.age := hcy_max s hsF hs_lt
    rcases lt_or_eq_of_le hscy with h | h
    · have := rel_of_pairwise_age_lt (yFront_pairwise_strict hd) s hs cy hcy_yF h
      exact le_trans (le_of_lt this) hstime
    · have : s = cy :=
        eq_of_age_eq hd (front_subset_pool hsF) (front_subset_pool hcyF) h
      rw [← this]
      exact hstime
  · -- x at the peak age would be the peak record itself, hence on the front
    exfalso
    have : x = firstMinKey Runner.time_seconds p ps :=
      eq_of_age_eq hd hx (firstMinKey_mem Runner.time_seconds ps p) heq
    rw [← hoh_fast] at this
    exact hxF (this ▸ hohF)
  · -- x on the older side: its exclusion witness is older and not slower
    have hxnot : x ∉ oFront (firstMinKey Runner.time_seconds p ps).age (p :: ps) :=
      fun h => hxF (mem_front_of_oFront h)
    obtain ⟨s, hs, hsage, hstime⟩ := oFront_excluded hx (le_of_lt hgt) hxnot
    have hsF : s ∈ compute_pareto_front (p :: ps) := mem_front_of_oFront hs
    have hsx : s ≠ x := fun h => hxF (h ▸ hsF)
    have hs_gt : x.age < s.age :=
      lt_of_le_of_ne hsage
        (fun h => hsx (eq_of_age_eq hd (front_subset_pool hsF) hx h.symm))
    have hcy_oF : cy ∈ oFront (firstMinKey Runner.time_seconds p ps).age (p :: ps) := by
      rcases front_mem_cases hcyF with h | h
      · exfalso
        have h1 := (yFront_mem h).2
        have h2 : (firstMinKey Runner.time_seconds p ps).age ≤ cy.age := by
          have := hcy_max oh hohF (hpeak_age ▸ hgt)
          rw [hpeak_age] at this
          exact this
        exact absurd h1 (not_lt.mpr h2)
      · exact h
    have := rel_of_pairwise_age_lt (oFront_pairwise_strict hd) cy hcy_oF s hs
      (lt_trans hcy_lt hs_gt)
    exact le_trans (le_of_lt this) hstime

/-- If a pool record with distinct ages and a unique global minimum is
not on the front, the nearest front entry older than it is not slower
than it. -/
theorem front_nearest_older_bound (p : Runner) (ps : List Runner)
    (hd : (p :: ps).Pairwise fun u v => u.age ≠ v.age)
    (hu : UniqueMinTime (p :: ps)) {x : Runner} (hx : x ∈ p :: ps)
    (hxF : x ∉ compute_pareto_front (p :: ps))
    {co : Runner} (hcoF : co ∈ compute_pareto_front (p :: ps)) (hco_gt : x.age < co.age)
    (hco_min : ∀ g ∈ compute_pareto_front (p :: ps), x.age < g.age → co.age ≤ g.age) :
    co.time_seconds ≤ x.time_seconds := by
  have hne := oFront_peak_ne_nil p ps
  obtain ⟨oh, ot, hoF⟩ := List.exists_cons_of_ne_nil hne
  have hoh_min := oFront_peak_cons_min p ps hoF
  have hoh_fast := oFront_peak_cons_eq_fastest p ps hu hoF
  have hohF : oh ∈ compute_pareto_front (p :: ps) :=
    mem_front_of_oFront (by rw [hoF]; simp)
  have hpeak_age : oh.age = (firstMinKey Runner.time_seconds p ps).age := by rw [hoh_fast]
  rcases Nat.lt_trichotomy x.age (firstMinKey Runner.time_seconds p ps).age with hlt | heq | hgt
  · -- x on the younger side: the nearest older entry is the peak itself
    -- or a younger-side entry between x and the peak
    rcases front_mem_cases hcoF with h | h
    · -- co on the younger half: compare with the younger exclusion witness
      have hxnot : x ∉ yFront (firstMinKey Runner.time_seconds p ps).age (p :: ps) :=
        fun h2 => hxF (mem_front_of_yFront h2)
      obtain ⟨s, hs, hsage, hstime⟩ := yFront_excluded hx hlt hxnot
      have hsF : s ∈ compute_pareto_front (p :: ps) := mem_front_of_yFront hs
      have hsx : s ≠ x := fun h2 => hxF (h2 ▸ hsF)
      have hs_lt : s.age < x.age :=
        lt_of_le_of_ne hsage
          (fun h2 => hsx (eq_of_age_eq hd (front_subset_pool hsF) hx h2))
      have := rel_of_pairwise_age_lt (yFront_pairwise_strict hd) s hs co h
        (lt_trans hs_lt hco_gt)
      exact le_trans (le_of_lt this) hstime
    · -- co on the older half: it coincides with the peak entry
      have hcoh : co = oh := by
        rcases List.mem_cons.mp (hoF ▸ h) with h1 | h1
        · exact h1
        · -- co strictly after the head: its age is at least the head age,
          -- yet minimality forces equality, hence equal records
          have hpw := oFront_pairwise (firstMinKey Runner.time_seconds p ps).age (p :: ps)
          rw [hoF] at hpw
          have h2 : oh.age ≤ co.age := (List.rel_of_pairwise_cons hpw h1).1
          have h3 : co.age ≤ oh.age := by
            have := hco_min oh hohF (hpeak_age ▸ hlt)
            exact this
          exact eq_of_age_eq hd (front_subset_pool hcoF) (front_subset_pool hohF)
            (le_antisymm h3 h2)
      rw [hcoh]
      exact hoh_min x hx
  · exfalso
    have : x = firstMinKey Runner.time_seconds p ps :=
      eq_of_age_eq hd hx (firstMinKey_mem Runner.time_seconds ps p) heq
    rw [← hoh_fast] at this
    exact hxF (this ▸ hohF)
  · -- x on the older side: compare with its older exclusion witness
    have hxnot : x ∉ oFront (firstMinKey Runner.time_seconds p ps).age (p :: ps) :=
      fun h => hxF (mem_front_of_oFront h)
    obtain ⟨s, hs, hsage, hstime⟩ := oFront_excluded hx (le_of_lt hgt) hxnot
    have hsF : s ∈ compute_pareto_front (p :: ps) := mem_front_of_oFront hs
    have hsx : s ≠ x := fun h => hxF (h ▸ hsF)
    have hs_gt : x.age < s.age :=
      lt_of_le_of_ne hsage
        (fun h => hsx (eq_of_age_eq hd (front_subset_pool hsF) hx h.symm))
    have hco_oF : co ∈ oFront (firstMinKey Runner.time_seconds p ps).age (p :: ps) := by
      rcases front_mem_cases hcoF with h | h
      · exact absurd (yFront_mem h).2
          (not_lt.mpr (le_of_lt (lt_trans hgt hco_gt)))
      · exact h
    have hcos : co.age ≤ s.age := hco_min s hsF hs_gt
    rcases lt_or_eq_of_le hcos with h | h
    · have := rel_of_pairwise_age_lt (oFront_pairwise_strict hd) co hco_oF s hs h
      exact le_trans (le_of_lt this) hstime
    · have : co = s :=
        eq_of_age_eq hd (front_subset_pool hcoF) (front_subset_pool hsF) h
      rw [this]
      exact hstime

/-- C10, counterexample: the pool `[(30,100),(40,100),(20,150)]` has
pairwise distinct ages, yet the record `(30,100)` is excluded from the
front `[(20,150),(40,100)]` by the minimum-time tie, and the
interpolated front time at its age is `150 + (100-150)*10/20 = 125`,
strictly above its own time 100 — its distance to the front is
negative. -/
theorem C10_counterexample :
    ([c10a, c10b, c10c].Pairwise fun u v => u.age ≠ v.age) ∧
    c10a ∈ [c10a, c10b, c10c] ∧
    get_pareto_time_at_age c10a.age (compute_pareto_front [c10a, c10b, c10c]) =
      some 125 ∧
    c10a.time_seconds < 125 := by
  refine ⟨by decide, by simp, ?_, by norm_num [c10a]⟩
  have hF : compute_pareto_front [c10a, c10b, c10c] = [c10c, c10b] := by decide
  rw [hF]
  have hno : findExact c10a.age [c10c, c10b] = none := by decide
  rw [gpt_no_exact hno]
  have hy : [c10c, c10b].filter (fun q => decide (q.age < c10a.age)) = [c10c] := by decide
  have ho : [c10c, c10b].filter (fun q => decide (c10a.age < q.age)) = [c10b] := by decide
  rw [hy, ho]
  norm_num [firstMaxKey, firstMinKey, c10a, c10b, c10c]

/-- C10, amended: when no two pool records share an age and the global
minimum time is uniquely attained, every pool record's distance to the
front is non-negative (the interpolated front time at its age never
exceeds its own time), and it is zero for every front member. -/
theorem C10_amended_distance (p : Runner) (ps : List Runner)
    (hd : (p :: ps).Pairwise fun u v => u.age ≠ v.age)
    (hu : UniqueMinTime (p :: ps)) :
    ∀ x ∈ p :: ps, ∃ t,
      get_pareto_time_at_age x.age (compute_pareto_front (p :: ps)) = some t ∧
      t ≤ x.time_seconds ∧
      (x ∈ compute_pareto_front (p :: ps) → t = x.time_seconds) := by
  have hne := oFront_peak_ne_nil p ps
  obtain ⟨oh, ot, hoF⟩ := List.exists_cons_of_ne_nil hne
  have hoh_min := oFront_peak_cons_min p ps hoF
  have hoh_fast := oFront_peak_cons_eq_fastest p ps hu hoF
  have hohF : oh ∈ compute_pareto_front (p :: ps) :=
    mem_front_of_oFront (by rw [hoF]; simp)
  have hpeak_age : oh.age = (firstMinKey Runner.time_seconds p ps).age := by rw [hoh_fast]
  intro x hx
  by_cases hex : ∃ f ∈ compute_pareto_front (p :: ps), f.age = x.age
  · -- a front entry shares the queried age; by distinctness it is x itself
    obtain ⟨f, hfF, hfa⟩ := hex
    have hxF : x ∈ compute_pareto_front (p :: ps) :=
      (eq_of_age_eq hd (front_subset_pool hfF) hx hfa) ▸ hfF
    have hFne : compute_pareto_front (p :: ps) ≠ [] := List.ne_nil_of_mem hxF
    obtain ⟨fh, fl, hFc⟩ := List.exists_cons_of_ne_nil hFne
    have hex2 : ∃ g ∈ fh :: fl, g.age = x.age := ⟨x, by rw [← hFc]; exact hxF, rfl⟩
    obtain ⟨t, ht⟩ := findExact_isSome x.age (fh :: fl) hex2
    obtain ⟨g, hg, hga, hgt⟩ := findExact_spec x.age (fh :: fl) t ht
    have hgx : g = x :=
      eq_of_age_eq hd (front_subset_pool (by rw [hFc]; exact hg)) hx hga
    refine ⟨t, ?_, ?_, fun _ => ?_⟩
    · rw [hFc]; exact gpt_exact ht
    · rw [← hgt, hgx]
    · rw [← hgt, hgx]
  · have hnoex : ∀ f ∈ compute_pareto_front (p :: ps), f.age ≠ x.age :=
      fun f hf ha => hex ⟨f, hf, ha⟩
    have hxF : x ∉ compute_pareto_front (p :: ps) := fun h => hnoex x h rfl
    have hxa_ne : x.age ≠ (firstMinKey Runner.time_seconds p ps).age := by
      intro h
      have h2 : x = firstMinKey Runner.time_seconds p ps :=
        eq_of_age_eq hd hx (firstMinKey_mem Runner.time_seconds ps p) h
      rw [← hoh_fast] at h2
      exact hxF (h2 ▸ hohF)
    have hexy : ∃ f ∈ compute_pareto_front (p :: ps), f.age < x.age := by
      rcases lt_or_gt_of_ne hxa_ne with hlt | hgt
      · have hxnot : x ∉ yFront (firstMinKey Runner.time_seconds p ps).age (p :: ps) :=
          fun h => hxF (mem_front_of_yFront h)
        obtain ⟨s, hs, hsage, -⟩ := yFront_excluded hx hlt hxnot
        have hsF : s ∈ compute_pareto_front (p :: ps) := mem_front_of_yFront hs
        exact ⟨s, hsF, lt_of_le_of_ne hsage (hnoex s hsF)⟩
      · exact ⟨oh, hohF, by rw [hpeak_age]; exact hgt⟩
    have hexo : ∃ f ∈ compute_pareto_front (p :: ps), x.age < f.age := by
      rcases lt_or_gt_of_ne hxa_ne with hlt | hgt
      · exact ⟨oh, hohF, by rw [hpeak_age]; exact hlt⟩
      · have hxnot : x ∉ oFront (firstMinKey Runner.time_seconds p ps).age (p :: ps) :=
          fun h => hxF (mem_front_of_oFront h)
        obtain ⟨s, hs, hsage, -⟩ := oFront_excluded hx (le_of_lt hgt) hxnot
        have hsF : s ∈ compute_pareto_front (p :: ps) := mem_front_of_oFront hs
        exact ⟨s, hsF, lt_of_le_of_ne hsage (fun h => (hnoex s hsF) h.symm)⟩
    have hFne : compute_pareto_front (p :: ps) ≠ [] := List.ne_nil_of_mem hohF
    obtain ⟨fh, fl, hFc⟩ := List.exists_cons_of_ne_nil hFne
    have hno : findExact x.age (fh :: fl) = none := by
      rw [findExact_eq_none_iff]
      intro f hf
      exact hnoex f (by rw [hFc]; exact hf)
    obtain ⟨fy0, hfy0F, hfy0a⟩ := hexy
    obtain ⟨fo0, hfo0F, hfo0a⟩ := hexo
    have hymem : fy0 ∈ (fh :: fl).filter fun q => decide (q.age < x.age) :=
      List.mem_filter.mpr ⟨by rw [← hFc]; exact hfy0F, decide_eq_true hfy0a⟩
    have homem : fo0 ∈ (fh :: fl).filter fun q => decide (x.age < q.age) :=
      List.mem_filter.mpr ⟨by rw [← hFc]; exact hfo0F, decide_eq_true hfo0a⟩
    obtain ⟨yh, yt, hyeq⟩ := List.exists_cons_of_ne_nil (List.ne_nil_of_mem hymem)
    obtain ⟨oh2, ot2, hoeq⟩ := List.exists_cons_of_ne_nil (List.ne_nil_of_mem homem)
    have hcy_mem_filter : firstMaxKey (fun r => r.age) yh yt ∈
        (fh :: fl).filter fun q => decide (q.age < x.age) := by
      rw [hyeq]; exact firstMaxKey_mem _ yt yh
    obtain ⟨hcy_memF, hcy_age⟩ := List.mem_filter.mp hcy_mem_filter
    have hcyF : firstMaxKey (fun r => r.age) yh yt ∈ compute_pareto_front (p :: ps) := by
      rw [hFc]; exact hcy_memF
    have hcy_lt : (firstMaxKey (fun r => r.age) yh yt).age < x.age :=
      of_decide_eq_true hcy_age
    have hcy_max : ∀ g ∈ compute_pareto_front (p :: ps), g.age < x.age →
        g.age ≤ (firstMaxKey (fun r => r.age) yh yt).age := by
      intro g hg hga
      rw [hFc] at hg
      have : g ∈ yh :: yt := by
        rw [← hyeq]
        exact List.mem_filter.mpr ⟨hg, decide_eq_true hga⟩
      exact firstMaxKey_ge _ yt yh g this
    have hco_mem_filter : firstMinKey (fun r => r.age) oh2 ot2 ∈
        (fh :: fl).filter fun q => decide (x.age < q.age) := by
      rw [hoeq]; exact firstMinKey_mem _ ot2 oh2
    obtain ⟨hco_memF, hco_age⟩ := List.mem_filter.mp hco_mem_filter
    have hcoF : firstMinKey (fun r => r.age) oh2 ot2 ∈ compute_pareto_front (p :: ps) := by
      rw [hFc]; exact hco_memF
    have hco_gt : x.age < (firstMinKey (fun r => r.age) oh2 ot2).age :=
      of_decide_eq_true hco_age
    have hco_min : ∀ g ∈ compute_pareto_front (p :: ps), x.age < g.age →
        (firstMinKey (fun r => r.age) oh2 ot2).age ≤ g.age := by
      intro g hg hga
      rw [hFc] at hg
      have : g ∈ oh2 :: ot2 := by
        rw [← hoeq]
        exact List.mem_filter.mpr ⟨hg, decide_eq_true hga⟩
      exact firstMinKey_le _ ot2 oh2 g this
    have hcyb := front_nearest_younger_bound p ps hd hu hx hxF hcyF hcy_lt hcy_max
    have hcob := front_nearest_older_bound p ps hd hu hx hxF hcoF hco_gt hco_min
    refine ⟨(firstMaxKey (fun r => r.age) yh yt).time_seconds +
        ((firstMinKey (fun r => r.age) oh2 ot2).time_seconds -
          (firstMaxKey (fun r => r.age) yh yt).time_seconds) *
        ((x.age : ℚ) - ((firstMaxKey (fun r => r.age) yh yt).age : ℚ)) /
        (((firstMinKey (fun r => r.age) oh2 ot2).age : ℚ) -
          ((firstMaxKey (fun r => r.age) yh yt).age : ℚ)),
      ?_, ?_, fun hmem => absurd hmem hxF⟩
    · rw [hFc, gpt_no_exact hno, hyeq, hoeq]
    · exact interp_le hcy_lt hco_gt hcyb hcob

/-- C10 witness: on the witness pool (distinct ages, unique minimum)
the record of age 20 is a front member and its interpolated front time
equals its own time — distance zero. -/
theorem C10_witness :
    get_pareto_time_at_age w1.age (compute_pareto_front [w1, w2, w3]) =
      some w1.time_seconds := by
  obtain ⟨t, ht, hle, hmem⟩ :=
    C10_amended_distance w1 [w2, w3] (by decide) (by decide) w1 (by simp)
  have hxf : w1 ∈ compute_pareto_front [w1, w2, w3] := by decide
  rw [hmem hxf] at ht
  exact ht

end Roadtown
